import Mathlib

/-!
# gnosis: index synchronisation core

A shallow embedding of `index.go` and `config.go` of JackKnifed/gnosis, with the
Go standard-library string and path functions they call, followed by the
properties established about them.

Go strings are byte sequences; they are embedded as lists of bytes.
-/

set_option autoImplicit false

namespace Gnosis

/-- A Go `string`: an immutable sequence of bytes. -/
abbrev GoString := List UInt8

/-- The bytes of an ASCII literal. -/
def ascii (s : String) : GoString := s.toList.map (fun c => c.toNat.toUInt8)

/-- The byte `'/'`, which is `os.PathSeparator` on the platforms the program targets. -/
abbrev slash : UInt8 := 47

/-- The byte `'.'`. -/
abbrev dot : UInt8 := 46

/-! ## `strings` -/

/-- Go `strings.HasPrefix`: `len(s) >= len(prefix) && s[0:len(prefix)] == prefix`. -/
def HasPrefix (s pre : GoString) : Bool :=
  decide (pre.length ≤ s.length) && decide (s.take pre.length = pre)

/-- Go `strings.HasSuffix`: `len(s) >= len(suffix) && s[len(s)-len(suffix):] == suffix`. -/
def HasSuffix (s suf : GoString) : Bool :=
  decide (suf.length ≤ s.length) && decide (s.drop (s.length - suf.length) = suf)

/-- Go `strings.TrimPrefix`: `s` without the leading `prefix`, or `s` itself. -/
def TrimPrefix (s pre : GoString) : GoString :=
  if HasPrefix s pre then s.drop pre.length else s

/-- Go `strings.TrimSuffix`: `s` without the trailing `suffix`, or `s` itself. -/
def TrimSuffix (s suf : GoString) : GoString :=
  if HasSuffix s suf then s.take (s.length - suf.length) else s

/-- Go `strings.Join`: the elements with `sep` between consecutive ones. -/
def Join : List GoString → GoString → GoString
  | [], _ => []
  | [e], _ => e
  | e :: f :: es, sep => e ++ sep ++ Join (f :: es) sep

/-! ## `path.Clean` -/

/-- The backward scan of the `..` case of `path.Clean`,
`for out.w > dotdot && out.index(out.w) != '/' { out.w-- }`, started at write index `w`;
the result is the write index at which the scan stops. -/
def backtrack (out : GoString) (dotdot : Nat) : Nat → Nat
  | 0 => 0
  | w + 1 =>
    if dotdot < w + 1 ∧ out.get? (w + 1) ≠ some slash then backtrack out dotdot w else w + 1

/-- The main loop `for r < n { switch ... }` of `path.Clean`.  The unread input `path[r:]` is
carried as `rest`, the written part of the buffer `out.buf[:out.w]` as `out`.  Every
iteration reads at least one byte, so `fuel = len(path)` iterations are enough. -/
def cleanLoop (rooted : Bool) : Nat → GoString → GoString → Nat → GoString
  | 0, _, out, _ => out
  | fuel + 1, rest, out, dotdot =>
    match rest with
    | [] => out
    | c :: rest1 =>
      if c = slash then
        -- empty path element
        cleanLoop rooted fuel rest1 out dotdot
      else if c = dot ∧ (rest1 = [] ∨ rest1.head? = some slash) then
        -- . element
        cleanLoop rooted fuel rest1 out dotdot
      else if c = dot ∧ rest1.head? = some dot ∧
          (rest1.tail = [] ∨ rest1.tail.head? = some slash) then
        -- .. element: remove to last /
        if dotdot < out.length then
          -- can backtrack
          cleanLoop rooted fuel rest1.tail
            (out.take (backtrack out dotdot (out.length - 1))) dotdot
        else if rooted = false then
          -- cannot backtrack, but not rooted, so append .. element
          let out1 := if 0 < out.length then out ++ [slash] else out
          let out2 := out1 ++ [dot, dot]
          cleanLoop rooted fuel rest1.tail out2 out2.length
        else
          cleanLoop rooted fuel rest1.tail out dotdot
      else
        -- real path element: add slash if needed, then copy the element
        let out1 :=
          if (rooted = true ∧ out.length ≠ 1) ∨ (rooted = false ∧ out.length ≠ 0) then
            out ++ [slash]
          else out
        cleanLoop rooted fuel (rest.dropWhile (fun b => b != slash))
          (out1 ++ rest.takeWhile (fun b => b != slash)) dotdot

/-- Go `path.Clean`: the shortest path name equivalent to `path` by purely lexical
processing. -/
def Clean (path : GoString) : GoString :=
  if path = [] then [dot]
  else
    let rooted := decide (path.head? = some slash)
    let out :=
      if rooted then cleanLoop true path.length path.tail [slash] 1
      else cleanLoop false path.length path [] 0
    if out.length = 0 then [dot] else out

/-! ## `index.go`: the path normaliser -/

/-- `relativePath` of `index.go`: trim the directory prefix, trim one leading `"/"`,
then `path.Clean`. -/
def relativePath (filePath dir : GoString) : GoString :=
  let filePath := TrimPrefix filePath dir
  let filePath := TrimPrefix filePath [slash]
  Clean filePath

/-! ## Collaborators of `index.go` -/

namespace fsnotify

/-- `fsnotify.Op`, a `uint32` bit mask of the kinds of change an event reports. -/
abbrev Op := Nat

/-- `fsnotify.Create`, `1 << 0`. -/
def Create : Op := 1
/-- `fsnotify.Write`, `1 << 1`. -/
def Write : Op := 2
/-- `fsnotify.Remove`, `1 << 2`. -/
def Remove : Op := 4
/-- `fsnotify.Rename`, `1 << 3`. -/
def Rename : Op := 8
/-- `fsnotify.Chmod`, `1 << 4`. -/
def Chmod : Op := 16

/-- `fsnotify.Event`: the path the event is about and the operation mask. -/
structure Event where
  Name : GoString
  Op : Op
deriving DecidableEq, Repr

/-- `fsnotify.Watcher`, identified by the path handed to `watcher.Add`. -/
structure Watcher where
  watched : GoString
deriving DecidableEq, Repr

end fsnotify

/-- `ServerSection` of `config.go`. -/
structure ServerSection where
  Path : GoString
  Prefix : GoString
  Default : GoString
  Template : GoString
  ServerType : GoString
  TopicURL : GoString
  Restricted : List GoString
deriving DecidableEq, Repr

/-- `RedirectSection` of `config.go`. -/
structure RedirectSection where
  Requested : GoString
  Target : GoString
  Code : Int
deriving DecidableEq, Repr

/-- `IndexSection` of `config.go`.  The Go map `WatchDirs` (physical directory → URI
location) is the list of its key/value pairs, in the order a `range` visits them. -/
structure IndexSection where
  WatchDirs : List (GoString × GoString)
  WatchExtension : GoString
  IndexPath : GoString
  IndexType : GoString
  IndexName : GoString
  Restricted : List GoString
  Handlers : List ServerSection
  Redirects : List RedirectSection
deriving DecidableEq, Repr

/-- `GlobalSection` of `config.go`. -/
structure GlobalSection where
  Address : GoString
  Port : GoString
  Hostname : GoString
  TemplateDir : GoString
  CertFile : GoString
  KeyFile : GoString
  Indexes : List IndexSection
deriving DecidableEq, Repr

/-- Modelled from the spec: the result of the page loader, `{title, body, tags, keywords,
modTime}` (§6).  The declaration of `PageMetadata` and its methods `LoadPage`, `MatchedTag`
and `ListMeta` are not among the sources; `index.go` reads the fields `Title`, `Page` and
`FileStats.ModTime()`. -/
structure PageMetadata where
  Title : GoString
  Page : GoString
  Topics : List GoString
  Keywords : List GoString
  ModTime : Nat
deriving DecidableEq, Repr

/-- Modelled from the spec: the tag matcher `matches(tags, restrictedSet)` (§6), true when
the tag set of the page intersects the restricted set (§4.2 step 2). -/
def PageMetadata.MatchedTag (pdata : PageMetadata) (restricted : List GoString) : Bool :=
  pdata.Topics.any (fun t => decide (t ∈ restricted))

/-- Modelled from the spec: the topic tags and the keywords of the page (§3, document
record). -/
def PageMetadata.ListMeta (pdata : PageMetadata) : List GoString × List GoString :=
  (pdata.Topics, pdata.Keywords)

/-- What `index.go` reads from outside the process at one moment: the page loader over the
current content of the files (`none` is a load error) and the markdown-to-text renderer. -/
structure Collaborators where
  LoadPage : GoString → Option PageMetadata
  Markdown : GoString → GoString

/-- One entry of a directory listing, with the listing below it when it is a directory: the
finite tree `ioutil.ReadDir` walks through. -/
inductive DirEntry where
  | file (name : GoString)
  | dir (name : GoString) (entries : List DirEntry)
deriving Repr

/-! ## `index.go` -/

/-- `indexedPage` of `index.go`. -/
structure indexedPage where
  Name : GoString
  Filepath : GoString
  Body : GoString
  Topics : GoString
  Keywords : GoString
  Modified : Nat
deriving DecidableEq, Repr

/-- An operation on the document store as the index issues it: `processDelete` deletes the
document `id`; `processUpdate` rebuilds the file `path` and upserts it under `id`. -/
inductive StoreOp where
  | delete (id : GoString)
  | update (path id : GoString)
deriving DecidableEq, Repr

/-- A call made on the bleve index: `TrueIndex.Index(id, data)` or `TrueIndex.Delete(id)`. -/
inductive StoreCall where
  | Index (id : GoString) (data : indexedPage)
  | Delete (id : GoString)
deriving DecidableEq, Repr

/-- `GnosisIndex` of `index.go`.  The bleve index `TrueIndex` is the finite map from
document id to stored document.  Two histories are kept for specification, oldest first:
`issued`, the calls of `processDelete` and `processUpdate`, and `calls`, the calls made on
the bleve index itself. -/
structure GnosisIndex where
  TrueIndex : GoString → Option indexedPage
  Config : IndexSection
  openWatchers : List fsnotify.Watcher
  issued : List StoreOp
  calls : List StoreCall

/-- `bleve.Index.Index(id, data)`: replace-or-insert the document under `id`. -/
def GnosisIndex.Index (index : GnosisIndex) (id : GoString) (data : indexedPage) :
    GnosisIndex :=
  { index with
    TrueIndex := fun k => if k = id then some data else index.TrueIndex k
    calls := index.calls ++ [StoreCall.Index id data] }

/-- `bleve.Index.Delete(id)`: remove the document under `id` if there is one. -/
def GnosisIndex.Delete (index : GnosisIndex) (id : GoString) : GnosisIndex :=
  { index with
    TrueIndex := fun k => if k = id then none else index.TrueIndex k
    calls := index.calls ++ [StoreCall.Delete id] }

/-- `cleanupMarkdown` of `index.go`: the page rendered to plain text. -/
def cleanupMarkdown (env : Collaborators) (input : GoString) : GoString :=
  env.Markdown input

/-- `generateWikiFromFile` of `index.go`: load the page; a load error and a page with a
restricted tag both return an error (`none`), otherwise the document is assembled. -/
def generateWikiFromFile (env : Collaborators) (index : GnosisIndex) (filePath : GoString) :
    Option indexedPage :=
  match env.LoadPage filePath with
  | none => none
  | some pdata =>
    if pdata.MatchedTag index.Config.Restricted = true then none
    else
      let cleanedUpPage := cleanupMarkdown env pdata.Page
      let (topics, keywords) := pdata.ListMeta
      some
        { Name := pdata.Title
          Body := cleanedUpPage
          Filepath := filePath
          Topics := Join topics [32]
          Keywords := Join keywords [32]
          Modified := pdata.ModTime }

/-- `processUpdate` of `index.go`: update the entry in the index to the output from a given
file; an error from `generateWikiFromFile` is logged and nothing is written. -/
def processUpdate (env : Collaborators) (index : GnosisIndex) (path dir : GoString) :
    GnosisIndex :=
  let rp := relativePath path dir
  let index := { index with issued := index.issued ++ [StoreOp.update path rp] }
  match generateWikiFromFile env index path with
  | none => index
  | some wiki => index.Index rp wiki

/-- `processDelete` of `index.go`: delete a given path from the index. -/
def processDelete (index : GnosisIndex) (path dir : GoString) : GnosisIndex :=
  let rp := relativePath path dir
  let index := { index with issued := index.issued ++ [StoreOp.delete rp] }
  index.Delete rp

mutual
/-- `walkForIndexing` of `index.go`, over the listing `dirEntries` that `ioutil.ReadDir(path)`
returns: walk a given path and run `processUpdate` on each file.  A listing that cannot be
read ends the process; the tree holds the listings of a walk that reads them all. -/
def walkForIndexing (env : Collaborators) (dirEntries : List DirEntry)
    (path origPath : GoString) (index : GnosisIndex) : GnosisIndex :=
  match dirEntries with
  | [] => index
  | dirEntry :: more =>
    walkForIndexing env more path origPath (walkEntry env dirEntry path origPath index)
/-- The body of the loop of `walkForIndexing` for one entry. -/
def walkEntry (env : Collaborators) (dirEntry : DirEntry)
    (path origPath : GoString) (index : GnosisIndex) : GnosisIndex :=
  match dirEntry with
  | DirEntry.dir name entries =>
    walkForIndexing env entries (path ++ [slash] ++ name) origPath index
  | DirEntry.file name =>
    if HasSuffix name index.Config.WatchExtension then
      processUpdate env index (path ++ [slash] ++ name) origPath
    else index
end

/-- The body of the loop over the queued events when the idle timer fires in
`startWatching`: the extension filter and the `switch ev.Op`. -/
def flushEvent (env : Collaborators) (filePath : GoString) (index : GnosisIndex)
    (ev : fsnotify.Event) : GnosisIndex :=
  if HasSuffix ev.Name index.Config.WatchExtension then
    if ev.Op = fsnotify.Remove ∨ ev.Op = fsnotify.Rename then
      -- delete the filePath
      processDelete index ev.Name filePath
    else if ev.Op = fsnotify.Create ∨ ev.Op = fsnotify.Write then
      -- update the filePath
      processUpdate env index ev.Name filePath
    else
      -- ignore
      index
  else index

/-- The state of the goroutine of `startWatching`: its queue and the index it works on. -/
structure WatcherState where
  queuedEvents : List fsnotify.Event
  index : GnosisIndex

/-- The three cases of the `select` of the goroutine of `startWatching`. -/
inductive Select where
  | event (ev : fsnotify.Event)
  | error
  | idleTimer

/-- One iteration of the `for { select { ... } }` of the goroutine of `startWatching`,
watching `filePath`.  An event is appended to the queue; a watcher error is fatal (`none`);
the expiry of the idle timer processes the queue in order and replaces it by an empty one. -/
def watcherStep (env : Collaborators) (filePath : GoString) (st : WatcherState) :
    Select → Option WatcherState
  | Select.event ev => some { st with queuedEvents := st.queuedEvents ++ [ev] }
  | Select.error => none
  | Select.idleTimer =>
    some
      { queuedEvents := []
        index := st.queuedEvents.foldl (flushEvent env filePath) st.index }

/-- What the file system answers while `OpenIndex` runs: whether a watch can be set on a
path (`fsnotify.NewWatcher` and `watcher.Add`), and the listing below a directory
(`ioutil.ReadDir`), `none` when it cannot be read. -/
structure FileSystem where
  Watch : GoString → Bool
  ReadDir : GoString → Option (List DirEntry)

/-- `startWatching` of `index.go`: the watcher on `filePath`, whose goroutine is
`watcherStep`; a watch that cannot be set is fatal (`none`). -/
def startWatching (fs : FileSystem) (filePath : GoString) : Option fsnotify.Watcher :=
  if fs.Watch filePath = true then some { watched := filePath } else none

/-- The loop `for _, dir := range index.Config.WatchDirs` of `OpenIndex`, over the entries
still to visit; `none` when `startWatching` or the listing of the directory is fatal. -/
def openLoop (env : Collaborators) (fs : FileSystem) :
    List (GoString × GoString) → GnosisIndex → Option GnosisIndex
  | [], index => some index
  | (_, dir) :: more, index =>
    let dir := TrimSuffix dir [slash]
    match startWatching fs dir with
    | none => none
    | some watcher =>
      let index := { index with openWatchers := index.openWatchers ++ [watcher] }
      match fs.ReadDir dir with
      | none => none
      | some dirEntries =>
        openLoop env fs more (walkForIndexing env dirEntries dir dir index)

/-- The answer of `bleve.Open`: the existing store, the error
`bleve.ErrorIndexPathDoesNotExist`, or another error. -/
inductive BleveOpen where
  | existing (store : GoString → Option indexedPage)
  | ErrorIndexPathDoesNotExist
  | otherError

/-- How a call of `OpenIndex` ends: it returns the index, it returns the error of
`bleve.Open`, or the process is ended by `log.Fatal`. -/
inductive Opened where
  | returned (index : GnosisIndex)
  | error
  | fatal

/-- The index a call of `OpenIndex` returned, if it returned one. -/
def Opened.index? : Opened → Option GnosisIndex
  | Opened.returned index => some index
  | Opened.error => none
  | Opened.fatal => none

/-- Whether a call of `OpenIndex` ended the process. -/
def Opened.isFatal : Opened → Bool
  | Opened.returned _ => false
  | Opened.error => false
  | Opened.fatal => true

/-- `OpenIndex` of `index.go`: open the store, or create it with `bleve.New` (whose answer
is `bleveNew`, `none` for an error) when it does not exist, then watch and walk every
configured directory. -/
def OpenIndex (env : Collaborators) (fs : FileSystem) (bleveOpen : BleveOpen)
    (bleveNew : Option (GoString → Option indexedPage)) (config : IndexSection) : Opened :=
  let watchAndWalk := fun (store : GoString → Option indexedPage) =>
    match openLoop env fs config.WatchDirs
        { TrueIndex := store, Config := config, openWatchers := [], issued := [],
          calls := [] } with
    | none => Opened.fatal
    | some index => Opened.returned index
  match bleveOpen with
  | BleveOpen.existing store => watchAndWalk store
  | BleveOpen.ErrorIndexPathDoesNotExist =>
    match bleveNew with
    | none => Opened.fatal
    | some store => watchAndWalk store
  | BleveOpen.otherError => Opened.error

/-! ## `config.go` -/

/-- The configuration `CleanConfig` works on.  The declaration of `Config` is not among the
sources; these are the fields `config.go` and `webserver/main.go` select from it, the
slices holding values as those of `IndexSection` do. -/
structure Config where
  Global : GlobalSection
  Indexes : List IndexSection
  Server : List ServerSection
  Redirects : List RedirectSection
deriving DecidableEq, Repr

/-- The body of the loop over `indexSection.WatchDirs` in `CleanConfig` when the `range`
reaches the key `origDirPath` of the map `m`, read as it is at that moment: a key the map
does not hold (any more) is not produced; otherwise the trailing separators are trimmed
and the entry is moved when that changed it. -/
def cleanWatchDir (m : List (GoString × GoString)) (origDirPath : GoString) :
    List (GoString × GoString) :=
  match m.lookup origDirPath with
  | none => m
  | some origWebPath =>
    let newDirPath := TrimSuffix origDirPath [slash]
    let newWebPath := TrimSuffix origWebPath [slash]
    let newDirPath := if newDirPath = [] then [slash] else newDirPath
    let newWebPath := if newWebPath = [] then [slash] else newWebPath
    if newDirPath ≠ origDirPath ∨ newWebPath ≠ origWebPath then
      let m := m.filter (fun kv => kv.1 ≠ origDirPath)
      if m.any (fun kv => kv.1 = newDirPath) then
        m.map (fun kv => if kv.1 = newDirPath then (newDirPath, newWebPath) else kv)
      else m ++ [(newDirPath, newWebPath)]
    else m

/-- The body of the loop `for _, serverSection := range config.Server` in `CleanConfig`: the
value the loop variable holds after the two assignments. -/
def cleanServerSection (serverSection : ServerSection) : ServerSection :=
  let serverSection :=
    if serverSection.Path ≠ [slash] then
      { serverSection with Path := TrimSuffix serverSection.Path [slash] }
    else serverSection
  if serverSection.Prefix ≠ [slash] then
    { serverSection with Prefix := TrimSuffix serverSection.Prefix [slash] }
  else serverSection

/-- `CleanConfig` of `config.go`.  `config` is a pointer, so the assignment to
`config.Global.TemplateDir` reaches it; `indexSection` is the loop's copy of the element but
`indexSection.WatchDirs` is the same map, changed in place while the `range` over it runs.
Go leaves open in which order a `range` reaches the keys of a map and whether it reaches a
key created meanwhile: `visited i` is the sequence of keys the `range` over the map of the
`i`-th index section reaches.  `serverSection` is the loop's copy of an element of
`config.Server`, which the assignments to its fields do not reach. -/
def CleanConfig (visited : Nat → List GoString) (config : Config) : Config :=
  let config :=
    if !HasSuffix config.Global.TemplateDir [slash] then
      { config with
        Global := { config.Global with TemplateDir := config.Global.TemplateDir ++ [slash] } }
    else config
  { config with
    Indexes := config.Indexes.enum.map (fun numbered =>
      let indexSection := numbered.2
      let _serverSections := config.Server.map cleanServerSection
      { indexSection with
        WatchDirs := (visited numbered.1).foldl cleanWatchDir indexSection.WatchDirs }) }

/-- `LoadConfig` of `config.go`, given the result of reading the file, the JSON decoder and
the keys the map ranges of `CleanConfig` reach: the configuration stored in
`staticConfig`, or the code of the error returned. -/
def LoadConfig (visited : Nat → List GoString) (fileContents : Option GoString)
    (Unmarshal : GoString → Option Config) : Except String Config :=
  match fileContents with
  | none => Except.error "ErrReadConfig"
  | some bytes =>
    match Unmarshal bytes with
    | none => Except.error "ErrParseConfig"
    | some temp => Except.ok (CleanConfig visited temp)

/-! ## Specification-side definitions -/

/-- A path element: non-empty and without a separator. -/
abbrev isElem (s : GoString) : Prop := s ≠ [] ∧ slash ∉ s

/-- A file or directory name: a path element other than `.` and `..`. -/
abbrev isName (s : GoString) : Prop := s ≠ [] ∧ slash ∉ s ∧ s ≠ [dot] ∧ s ≠ [dot, dot]

/-- The unread input is at the end of an element: it is empty or begins with a separator. -/
abbrev atBoundary (rest : GoString) : Prop := rest = [] ∨ rest.head? = some slash

/-- The unrooted paths `path.Clean` produces: `k` elements `..` followed by the names
`segs`, joined by separators. -/
def Canon (k : Nat) (segs : List GoString) : GoString :=
  Join (List.replicate k [dot, dot] ++ segs) [slash]

/-- The segments of a path: the parts between its separators. -/
def splitPath : GoString → List GoString
  | [] => [[]]
  | c :: cs =>
    if c = slash then [] :: splitPath cs
    else
      match splitPath cs with
      | [] => [[c]]
      | s :: ss => (c :: s) :: ss

/-- A lexically clean relative path without `.` and `..` segments: every segment between
separators is non-empty, so that there is no leading, doubled or trailing separator and
the path is not empty, and no segment is `.` or `..`. -/
def LexicallyClean (p : GoString) : Prop :=
  ∀ s ∈ splitPath p, s ≠ [] ∧ s ≠ [dot] ∧ s ≠ [dot, dot]

instance (p : GoString) : Decidable (LexicallyClean p) := by
  unfold LexicallyClean; infer_instance

mutual
/-- The path components, below the directory listed, of every non-directory entry at any
depth whose name ends with the extension, in the order of the listings. -/
def matchingFiles (ext : GoString) : List DirEntry → List (List GoString)
  | [] => []
  | dirEntry :: more => matchingFilesIn ext dirEntry ++ matchingFiles ext more
/-- The matching files of one entry. -/
def matchingFilesIn (ext : GoString) : DirEntry → List (List GoString)
  | DirEntry.file name => if HasSuffix name ext = true then [[name]] else []
  | DirEntry.dir name entries => (matchingFiles ext entries).map (fun comps => name :: comps)
end

mutual
/-- Every name in the listings is a file-system name: non-empty, without a separator, and
neither `.` nor `..`. -/
def validEntries : List DirEntry → Bool
  | [] => true
  | dirEntry :: more => validEntry dirEntry && validEntries more
/-- The names of one entry and below it are file-system names. -/
def validEntry : DirEntry → Bool
  | DirEntry.file name => decide (isName name)
  | DirEntry.dir name entries => decide (isName name) && validEntries entries
end

/-- The update `processUpdate` issues for the file with the path components `comps` below
the directory `path`, in a walk started at `origPath`. -/
def walkUpdate (path origPath : GoString) (comps : List GoString) : StoreOp :=
  StoreOp.update (path ++ [slash] ++ Join comps [slash])
    (relativePath (path ++ [slash] ++ Join comps [slash]) origPath)

/-- The goroutine of `startWatching` run over a sequence of `select` cases; `none` once a
watcher error has ended the process. -/
def runWatcher (env : Collaborators) (filePath : GoString) :
    WatcherState → List Select → Option WatcherState
  | st, [] => some st
  | st, sel :: more =>
    match watcherStep env filePath st sel with
    | none => none
    | some st1 => runWatcher env filePath st1 more

/-- The store operation the flush owes for one queued event, in the words of the
specification: nothing unless the name ends with the extension; a delete of the relative id
for remove or rename; an update of the relative id for create or write; nothing otherwise. -/
def owedFor (ext root : GoString) (ev : fsnotify.Event) : List StoreOp :=
  if HasSuffix ev.Name ext = true then
    if ev.Op = fsnotify.Remove ∨ ev.Op = fsnotify.Rename then
      [StoreOp.delete (relativePath ev.Name root)]
    else if ev.Op = fsnotify.Create ∨ ev.Op = fsnotify.Write then
      [StoreOp.update ev.Name (relativePath ev.Name root)]
    else []
  else []

/-- The document record of a loaded page, in the words of the specification (§3): title,
rendered plain-text body, space-joined topic tags, space-joined keywords and modification
time. -/
def documentOf (env : Collaborators) (filePath : GoString) (pdata : PageMetadata) :
    indexedPage :=
  { Name := pdata.Title
    Filepath := filePath
    Body := env.Markdown pdata.Page
    Topics := Join pdata.Topics [32]
    Keywords := Join pdata.Keywords [32]
    Modified := pdata.ModTime }

/-- The document builder in the words of the specification (§4.2): no document when the
file cannot be loaded or when its tags intersect the restricted set, otherwise the document
record of the page. -/
def build (env : Collaborators) (restricted : List GoString) (filePath : GoString) :
    Option indexedPage :=
  match env.LoadPage filePath with
  | none => none
  | some pdata =>
    if pdata.Topics.any (fun t => decide (t ∈ restricted)) = true then none
    else some (documentOf env filePath pdata)

/-- The calls on the index engine the flush makes for one queued event: none unless the
name ends with the extension; a delete of the relative id for remove or rename; for create
or write an upsert of the rebuilt document under the relative id when the build gives a
document, and none when it does not; none for any other operation. -/
def owedCalls (env : Collaborators) (restricted : List GoString) (ext root : GoString)
    (ev : fsnotify.Event) : List StoreCall :=
  if HasSuffix ev.Name ext = true then
    if ev.Op = fsnotify.Remove ∨ ev.Op = fsnotify.Rename then
      [StoreCall.Delete (relativePath ev.Name root)]
    else if ev.Op = fsnotify.Create ∨ ev.Op = fsnotify.Write then
      match build env restricted ev.Name with
      | none => []
      | some document => [StoreCall.Index (relativePath ev.Name root) document]
    else []
  else []

/-- The calls on the index engine the flush makes for a queue, in arrival order. -/
def owedCallsQueue (env : Collaborators) (restricted : List GoString) (ext root : GoString) :
    List fsnotify.Event → List StoreCall
  | [] => []
  | ev :: q => owedCalls env restricted ext root ev ++ owedCallsQueue env restricted ext root q

/-- The store after one call on the index engine: an upsert replaces or inserts the
document under the id, a delete removes it if present. -/
def applyCall (store : GoString → Option indexedPage) :
    StoreCall → GoString → Option indexedPage
  | StoreCall.Index id data => fun k => if k = id then some data else store k
  | StoreCall.Delete id => fun k => if k = id then none else store k

/-- The store after a sequence of calls on the index engine. -/
def applyCalls (store : GoString → Option indexedPage) (calls : List StoreCall) :
    GoString → Option indexedPage :=
  calls.foldl applyCall store

/-- The store operations the flush owes for a queue, in arrival order. -/
def owedForQueue (ext root : GoString) : List fsnotify.Event → List StoreOp
  | [] => []
  | ev :: q => owedFor ext root ev ++ owedForQueue ext root q

/-- The number of rebuilds of the file `path` among the issued operations. -/
def rebuildsOf (path : GoString) (ops : List StoreOp) : Nat :=
  (ops.filter (fun op =>
    match op with
    | StoreOp.update p _ => decide (p = path)
    | StoreOp.delete _ => false)).length

/-- The kinds of change an operation mask combines, as `fsnotify.Op.String` lists them. -/
def fsnotify.kinds (op : fsnotify.Op) : List fsnotify.Op :=
  [fsnotify.Create, fsnotify.Remove, fsnotify.Write, fsnotify.Rename, fsnotify.Chmod].filter
    (fun k => decide (op &&& k = k))

/-! ## Example data -/

/-- Collaborators over a tree in which no page can be loaded. -/
def noPages : Collaborators :=
  { LoadPage := fun _ => none, Markdown := fun b => b }

/-- The index section of the scenario of the specification:
`{WatchDirs: {"/var/www/": "/"}, WatchExtension: ".md"}` with the restricted tag `draft`. -/
def wwwSection : IndexSection :=
  { WatchDirs := [(ascii "/var/www/", ascii "/")]
    WatchExtension := ascii ".md"
    IndexPath := ascii "/index/"
    IndexType := ascii "en"
    IndexName := ascii "wiki"
    Restricted := [ascii "draft"]
    Handlers := []
    Redirects := [] }

/-- An index over `wwwSection` with an empty store. -/
def emptyIndex : GnosisIndex :=
  { TrueIndex := fun _ => none, Config := wwwSection, openWatchers := [], issued := [],
    calls := [] }

/-- A write event on `/var/www/a.md`. -/
def writeA : fsnotify.Event := { Name := ascii "/var/www/a.md", Op := fsnotify.Write }

/-- The page `/var/www/draft.md` of the scenario of the specification, tagged `draft`. -/
def draftPage : PageMetadata :=
  { Title := ascii "Draft", Page := ascii "text", Topics := [ascii "draft"], Keywords := [],
    ModTime := 2 }

/-- Collaborators over a tree whose every page loads as `draftPage`. -/
def draftPages : Collaborators :=
  { LoadPage := fun _ => some draftPage, Markdown := fun b => b }

/-- The document an earlier build stored for `draft.md`, before the page was tagged. -/
def earlierDraft : indexedPage :=
  { Name := ascii "Draft", Filepath := ascii "/var/www/draft.md", Body := ascii "text",
    Topics := [], Keywords := [], Modified := 1 }

/-- An index over `wwwSection` whose store holds `earlierDraft` under `draft.md`. -/
def indexWithDraft : GnosisIndex :=
  { TrueIndex := fun k => if k = ascii "draft.md" then some earlierDraft else none
    Config := wwwSection, openWatchers := [], issued := [], calls := [] }

/-- The handler of the configuration of `TestSimpleConfig`. -/
def testHandler : ServerSection :=
  { Path := ascii "/var/www/wiki/", Prefix := ascii "/", Default := ascii "index",
    Template := [], ServerType := ascii "markdown", TopicURL := [], Restricted := [] }

/-- The configuration of `TestSimpleConfig` as the JSON decoder fills it in: the one index
with its handler; no key of the document names a field of `Global`, `Server` or
`Redirects`, which stay empty. -/
def testConfig : Config :=
  { Global :=
      { Address := [], Port := [], Hostname := [], TemplateDir := [],
        CertFile := [], KeyFile := [], Indexes := [] }
    Indexes :=
      [{ WatchDirs := [], WatchExtension := [], IndexPath := [], IndexType := [],
         IndexName := [], Restricted := [], Handlers := [testHandler], Redirects := [] }]
    Server := []
    Redirects := [] }

/-- The listing of `/var/www` in the scenario of the specification, with a file that does
not match the extension. -/
def wwwTree : List DirEntry :=
  [DirEntry.file (ascii "draft.md"),
   DirEntry.dir (ascii "notes") [DirEntry.file (ascii "setup.md"), DirEntry.file (ascii "x.txt")]]

/-- A file system whose only directory is `/var/www`, holding `wwwTree`.  A watch can be
set on it and on `""`, which fsnotify takes for the current directory; only `/var/www` can
be listed, `ioutil.ReadDir("")` being an error. -/
def wwwOnly : FileSystem :=
  { Watch := fun d => decide (d = ascii "/var/www" ∨ d = ascii "")
    ReadDir := fun d => if d = ascii "/var/www" then some wwwTree else none }

/-- An index section whose `WatchDirs` names `/var/www/` as the URI location of a directory
that does not exist. -/
def swappedSection : IndexSection :=
  { wwwSection with WatchDirs := [(ascii "/nonexistent/", ascii "/var/www/")] }

/-- A write event on `/var/www/draft.md`. -/
def writeDraft : fsnotify.Event :=
  { Name := ascii "/var/www/draft.md", Op := fsnotify.Write }

/-! ## `path.Clean` on paths that do not begin with a separator -/

/-- `path.Clean` on paths with empty, `.` and `..` elements, rooted and not. -/
theorem Clean_examples :
    Clean (ascii "a/../../b/./c//d/..") = ascii "../b/c" ∧
    Clean (ascii "/a/../../b/./c//d/..") = ascii "/b/c" ∧
    Clean (ascii "/../a/b/../../..") = ascii "/" ∧
    Clean (ascii "abc/..") = ascii "." ∧
    Clean (ascii "..a/.b/...") = ascii "..a/.b/..." ∧
    Clean (ascii "") = ascii "." := by
  decide

theorem cleanLoop_nil (rooted : Bool) (fuel : Nat) (out : GoString) (dd : Nat) :
    cleanLoop rooted fuel [] out dd = out := by
  cases fuel <;> rfl

theorem dropWhile_length_le {α : Type} (p : α → Bool) (l : List α) :
    (l.dropWhile p).length ≤ l.length := by
  induction l with
  | nil => simp
  | cons a l ih =>
    simp only [List.dropWhile_cons]
    split
    · simp; omega
    · simp

/-- The result of the loop does not depend on the fuel once it covers the unread input. -/
theorem cleanLoop_fuel (rooted : Bool) :
    ∀ (fuel1 fuel2 : Nat) (rest out : GoString) (dd : Nat),
      rest.length ≤ fuel1 → rest.length ≤ fuel2 →
      cleanLoop rooted fuel1 rest out dd = cleanLoop rooted fuel2 rest out dd := by
  intro fuel1
  induction fuel1 with
  | zero =>
    intro fuel2 rest out dd h1 _
    have : rest = [] := List.length_eq_zero.mp (Nat.le_zero.mp h1)
    subst this
    rw [cleanLoop_nil, cleanLoop_nil]
  | succ n ih =>
    intro fuel2 rest out dd h1 h2
    cases rest with
    | nil => rw [cleanLoop_nil, cleanLoop_nil]
    | cons c rest1 =>
      cases fuel2 with
      | zero => simp at h2
      | succ m =>
        simp only [List.length_cons, Nat.add_le_add_iff_right] at h1 h2
        have ht1 : rest1.tail.length ≤ n := by simp; omega
        have ht2 : rest1.tail.length ≤ m := by simp; omega
        simp only [cleanLoop]
        split
        · exact ih _ _ _ _ h1 h2
        · split
          · exact ih _ _ _ _ h1 h2
          · split
            · split
              · exact ih _ _ _ _ ht1 ht2
              · split
                · exact ih _ _ _ _ ht1 ht2
                · exact ih _ _ _ _ ht1 ht2
            · rename_i hc _ _
              have hd : (c :: rest1).dropWhile (fun b => b != slash) =
                  rest1.dropWhile (fun b => b != slash) := by
                simp [List.dropWhile_cons, hc]
              rw [hd]
              have := dropWhile_length_le (fun b => b != slash) rest1
              exact ih _ _ _ _ (by omega) (by omega)

theorem takeWhile_elem (s rest : GoString) (hs : slash ∉ s) (hb : atBoundary rest) :
    (s ++ rest).takeWhile (fun b => b != slash) = s ∧
    (s ++ rest).dropWhile (fun b => b != slash) = rest := by
  induction s with
  | nil =>
    rcases hb with h | h
    · subst h; simp
    · cases rest with
      | nil => simp
      | cons a rest =>
        simp only [List.head?_cons, Option.some.injEq] at h
        subst h
        simp [List.takeWhile_cons, List.dropWhile_cons]
  | cons c s ih =>
    have hc : c ≠ slash := fun h => hs (by simp [h])
    have hs1 : slash ∉ s := fun h => hs (List.mem_cons_of_mem _ h)
    obtain ⟨h1, h2⟩ := ih hs1
    simp [List.takeWhile_cons, List.dropWhile_cons, hc, h1, h2]

theorem cleanLoop_slash (rooted : Bool) (fuel : Nat) (rest out : GoString) (dd : Nat) :
    cleanLoop rooted (fuel + 1) (slash :: rest) out dd = cleanLoop rooted fuel rest out dd := by
  simp [cleanLoop]

theorem cleanLoop_name (rooted : Bool) (fuel : Nat) (s rest out : GoString) (dd : Nat)
    (hs : isName s) (hb : atBoundary rest) :
    cleanLoop rooted (fuel + 1) (s ++ rest) out dd =
      cleanLoop rooted fuel rest
        ((if (rooted = true ∧ out.length ≠ 1) ∨ (rooted = false ∧ out.length ≠ 0) then
            out ++ [slash]
          else out) ++ s) dd := by
  obtain ⟨hne, hsl, hd, hdd⟩ := hs
  obtain ⟨htw, hdw⟩ := takeWhile_elem s rest hsl hb
  cases s with
  | nil => exact absurd rfl hne
  | cons c s1 =>
    have hc : c ≠ slash := fun h => hsl (by simp [h])
    have h2 : ¬ (c = dot ∧ (s1 ++ rest = [] ∨ (s1 ++ rest).head? = some slash)) := by
      rintro ⟨hcd, h⟩
      cases s1 with
      | nil => exact hd (by rw [hcd])
      | cons d s2 =>
        have hdn : d ≠ slash := fun h => hsl (by simp [h])
        simp at h
        exact hdn h
    have h3 : ¬ (c = dot ∧ (s1 ++ rest).head? = some dot ∧
        ((s1 ++ rest).tail = [] ∨ (s1 ++ rest).tail.head? = some slash)) := by
      rintro ⟨hcd, hh, h⟩
      cases s1 with
      | nil => exact hd (by rw [hcd])
      | cons d s2 =>
        simp only [List.cons_append, List.head?_cons, Option.some.injEq] at hh
        cases s2 with
        | nil => exact hdd (by rw [hcd, hh])
        | cons e s3 =>
          have hen : e ≠ slash := fun h => hsl (by simp [h])
          simp at h
          exact hen h
    simp only [List.cons_append] at htw hdw h2 h3 ⊢
    rw [cleanLoop]
    simp only [hc, h2, h3, if_false, htw, hdw]

theorem cleanLoop_dot (rooted : Bool) (fuel : Nat) (rest out : GoString) (dd : Nat)
    (hb : atBoundary rest) :
    cleanLoop rooted (fuel + 1) (dot :: rest) out dd = cleanLoop rooted fuel rest out dd := by
  have hc : dot ≠ slash := by decide
  rw [cleanLoop, if_neg hc, if_pos ⟨rfl, hb⟩]

theorem cleanLoop_dotdot (rooted : Bool) (fuel : Nat) (rest out : GoString) (dd : Nat)
    (hb : atBoundary rest) :
    cleanLoop rooted (fuel + 1) (dot :: dot :: rest) out dd =
      if dd < out.length then
        cleanLoop rooted fuel rest (out.take (backtrack out dd (out.length - 1))) dd
      else if rooted = false then
        cleanLoop rooted fuel rest
          ((if 0 < out.length then out ++ [slash] else out) ++ [dot, dot])
          ((if 0 < out.length then out ++ [slash] else out) ++ [dot, dot]).length
      else cleanLoop rooted fuel rest out dd := by
  have hc : dot ≠ slash := by decide
  have h2 : ¬ (dot = dot ∧ (dot :: rest = [] ∨ (dot :: rest).head? = some slash)) := by
    rintro ⟨_, h | h⟩
    · exact List.cons_ne_nil _ _ h
    · simp only [List.head?_cons, Option.some.injEq] at h
      exact hc h
  rw [cleanLoop, if_neg hc, if_neg h2, if_pos ⟨rfl, rfl, hb⟩]
  rfl

theorem Join_cons_cons (e f : GoString) (es : List GoString) (sep : GoString) :
    Join (e :: f :: es) sep = e ++ sep ++ Join (f :: es) sep := rfl

theorem Join_snoc (l : List GoString) (s sep : GoString) :
    Join (l ++ [s]) sep = if l = [] then s else Join l sep ++ sep ++ s := by
  induction l with
  | nil => simp [Join]
  | cons e l ih =>
    cases l with
    | nil => simp [Join]
    | cons f l =>
      simp only [List.cons_append, reduceCtorEq, if_false] at ih ⊢
      rw [Join_cons_cons, ih, Join_cons_cons]
      simp [List.append_assoc]

theorem Join_ne_nil (l : List GoString) (sep : GoString) (hl : l ≠ [])
    (h : ∀ e ∈ l, e ≠ []) : Join l sep ≠ [] := by
  cases l with
  | nil => exact absurd rfl hl
  | cons e l =>
    have he : e ≠ [] := h e (List.mem_cons_self _ _)
    cases l with
    | nil => simpa [Join] using he
    | cons f l => simp [Join, he]

theorem Join_head (e : GoString) (l : List GoString) (sep : GoString) (he : e ≠ []) :
    (Join (e :: l) sep).head? = e.head? := by
  cases e with
  | nil => exact absurd rfl he
  | cons c e =>
    cases l with
    | nil => simp [Join]
    | cons f l => simp [Join]

theorem Join_prefix (sep : GoString) (l m : List GoString) :
    ∃ t, Join (l ++ m) sep = Join l sep ++ t := by
  induction l with
  | nil => exact ⟨Join m sep, by simp [Join]⟩
  | cons e l ih =>
    cases l with
    | nil =>
      cases m with
      | nil => exact ⟨[], by simp [Join]⟩
      | cons f m => exact ⟨sep ++ Join (f :: m) sep, by simp [Join]⟩
    | cons f l =>
      obtain ⟨t, ht⟩ := ih
      refine ⟨t, ?_⟩
      simp only [List.cons_append] at ht ⊢
      rw [Join_cons_cons, ht, Join_cons_cons]
      simp [List.append_assoc]

theorem backtrack_name (s : GoString) (hs : slash ∉ s) :
    ∀ n, n < s.length → backtrack s 0 n = 0 := by
  intro n
  induction n with
  | zero => intro _; rfl
  | succ n ih =>
    intro hn
    have hget : s.get? (n + 1) ≠ some slash := by
      intro h
      exact hs (List.get?_mem h)
    rw [backtrack, if_pos ⟨Nat.succ_pos _, hget⟩]
    exact ih (by omega)

theorem backtrack_after_slash (B s : GoString) (dd : Nat) (hs : slash ∉ s)
    (hdd : dd ≤ B.length) :
    ∀ n, n ≤ s.length → backtrack (B ++ slash :: s) dd (B.length + n) = B.length := by
  intro n
  induction n with
  | zero =>
    intro _
    cases hB : B.length with
    | zero => rfl
    | succ w =>
      have hget : (B ++ slash :: s).get? (w + 1) = some slash := by
        rw [← hB, List.get?_eq_getElem?, List.getElem?_append_right (Nat.le_refl _)]
        simp
      simp only [Nat.add_zero]
      rw [backtrack, if_neg]
      rintro ⟨_, h⟩
      exact h hget
  | succ n ih =>
    intro hn
    have hget : (B ++ slash :: s).get? (B.length + (n + 1)) ≠ some slash := by
      intro h
      have h1 : (B ++ slash :: s).get? (B.length + (n + 1)) = s.get? n := by
        rw [List.get?_eq_getElem?, List.getElem?_append_right (by omega)]
        simp
      rw [h1] at h
      exact hs (List.get?_mem h)
    have : B.length + (n + 1) = (B.length + n) + 1 := by omega
    rw [this] at hget ⊢
    rw [backtrack, if_pos ⟨by omega, hget⟩]
    exact ih (by omega)

theorem takeWhile_nil_boundary (rest : GoString)
    (h : rest.takeWhile (fun b => b != slash) = []) : atBoundary rest := by
  cases rest with
  | nil => exact Or.inl rfl
  | cons a rest =>
    right
    by_cases ha : a = slash
    · simp [ha]
    · simp [List.takeWhile_cons, ha] at h

theorem dropWhile_boundary (rest : GoString) :
    atBoundary (rest.dropWhile (fun b => b != slash)) := by
  induction rest with
  | nil => exact Or.inl rfl
  | cons a rest ih =>
    by_cases ha : a = slash
    · right; simp [List.dropWhile_cons, ha]
    · simpa [List.dropWhile_cons, ha] using ih

theorem takeWhile_isName (c : UInt8) (rest1 : GoString) (hc : c ≠ slash)
    (h2 : ¬ (c = dot ∧ atBoundary rest1))
    (h3 : ¬ (c = dot ∧ rest1.head? = some dot ∧ atBoundary rest1.tail)) :
    isName ((c :: rest1).takeWhile (fun b => b != slash)) := by
  have htw : (c :: rest1).takeWhile (fun b => b != slash) =
      c :: rest1.takeWhile (fun b => b != slash) := by
    simp [List.takeWhile_cons, hc]
  rw [htw]
  refine ⟨List.cons_ne_nil _ _, ?_, ?_, ?_⟩
  · intro h
    rcases List.mem_cons.mp h with h | h
    · exact hc h.symm
    · have := List.mem_takeWhile_imp h
      simp at this
  · intro h
    simp only [List.cons.injEq] at h
    exact h2 ⟨h.1, takeWhile_nil_boundary _ h.2⟩
  · intro h
    simp only [List.cons.injEq] at h
    obtain ⟨hcd, ht⟩ := h
    cases rest1 with
    | nil => simp at ht
    | cons d rest2 =>
      by_cases hd : d = slash
      · simp [List.takeWhile_cons, hd] at ht
      · simp only [List.takeWhile_cons, bne_iff_ne, ne_eq, hd, not_false_eq_true,
          decide_True, if_true, List.cons.injEq] at ht
        exact h3 ⟨hcd, by simp [ht.1], takeWhile_nil_boundary _ ht.2⟩

theorem Canon_snoc (k : Nat) (segs : List GoString) (s : GoString) :
    Canon k (segs ++ [s]) =
      if k = 0 ∧ segs = [] then s else Canon k segs ++ [slash] ++ s := by
  unfold Canon
  rw [← List.append_assoc, Join_snoc]
  cases k with
  | zero => simp
  | succ k => simp [List.replicate_succ]

theorem Canon_eq_nil (k : Nat) (segs : List GoString) (h : ∀ s ∈ segs, s ≠ [])
    (hnil : Canon k segs = []) : k = 0 ∧ segs = [] := by
  by_contra hne
  apply Join_ne_nil (List.replicate k [dot, dot] ++ segs) [slash] _ _ hnil
  · intro h0
    simp only [List.append_eq_nil, List.replicate_eq_nil_iff] at h0
    exact hne h0
  · intro e he
    rcases List.mem_append.mp he with he | he
    · rw [(List.mem_replicate.mp he).2]; simp
    · exact h e he

theorem Canon_zero_nil : Canon 0 [] = [] := rfl

theorem Canon_dd_le (k : Nat) (segs : List GoString) :
    (Canon k []).length ≤ (Canon k segs).length := by
  obtain ⟨t, ht⟩ := Join_prefix [slash] (List.replicate k [dot, dot]) segs
  unfold Canon
  rw [ht]
  simp

theorem Canon_dd_lt (k : Nat) (segs : List GoString) (s : GoString) (hs : s ≠ []) :
    (Canon k []).length < (Canon k (segs ++ [s])).length := by
  have hpos : 0 < s.length := List.length_pos.mpr hs
  have hle := Canon_dd_le k segs
  rw [Canon_snoc]
  split
  · rename_i h
    rw [h.1]
    simpa [Canon_zero_nil] using hpos
  · simp only [List.length_append]
    omega

theorem Canon_succ (k : Nat) :
    Canon (k + 1) [] =
      (if 0 < (Canon k []).length then Canon k [] ++ [slash] else Canon k []) ++
        [dot, dot] := by
  have h : Canon (k + 1) [] = Canon k ([] ++ [[dot, dot]]) := by
    unfold Canon
    simp [List.replicate_succ']
  rw [h, Canon_snoc]
  by_cases hk : k = 0
  · subst hk
    simp [Canon_zero_nil]
  · have hne : Canon k [] ≠ [] := fun h0 => hk (Canon_eq_nil k [] (by simp) h0).1
    have hpos : 0 < (Canon k []).length := List.length_pos.mpr hne
    simp [hk, hpos]

theorem Canon_push (k : Nat) (segs : List GoString) (h : ∀ s ∈ segs, s ≠ [])
    (s : GoString) :
    (if (false = true ∧ (Canon k segs).length ≠ 1) ∨
          (false = false ∧ (Canon k segs).length ≠ 0) then Canon k segs ++ [slash]
        else Canon k segs) ++ s = Canon k (segs ++ [s]) := by
  rw [Canon_snoc]
  by_cases hk : k = 0 ∧ segs = []
  · rw [if_pos hk, hk.1, hk.2, Canon_zero_nil]
    simp
  · have hne : Canon k segs ≠ [] := fun h0 => hk (Canon_eq_nil k segs h h0)
    have hpos : (Canon k segs).length ≠ 0 := by
      intro h0; exact hne (List.length_eq_zero.mp h0)
    rw [if_neg hk, if_pos (Or.inr ⟨rfl, hpos⟩)]

/-- Started without a leading separator on a buffer of the form `Canon k segs`, with
`dotdot` at the end of the `..` elements, the loop of `path.Clean` ends on a buffer of
that form. -/
theorem cleanLoop_canon (fuel : Nat) :
    ∀ (rest : GoString) (k : Nat) (segs : List GoString), (∀ s ∈ segs, isName s) →
      ∃ (k1 : Nat) (segs1 : List GoString), (∀ s ∈ segs1, isName s) ∧
        cleanLoop false fuel rest (Canon k segs) (Canon k []).length = Canon k1 segs1 := by
  induction fuel with
  | zero => intro rest k segs h; exact ⟨k, segs, h, rfl⟩
  | succ fuel ih =>
    intro rest k segs h
    cases rest with
    | nil => exact ⟨k, segs, h, rfl⟩
    | cons c rest1 =>
      by_cases hc : c = slash
      · subst hc
        rw [cleanLoop_slash]
        exact ih rest1 k segs h
      by_cases h2 : c = dot ∧ atBoundary rest1
      · rw [h2.1, cleanLoop_dot _ _ _ _ _ h2.2]
        exact ih rest1 k segs h
      by_cases h3 : c = dot ∧ rest1.head? = some dot ∧ atBoundary rest1.tail
      · obtain ⟨hcd, hh, hb⟩ := h3
        cases rest1 with
        | nil => simp at hh
        | cons d rest2 =>
          simp only [List.head?_cons, Option.some.injEq] at hh
          simp only [List.tail_cons] at hb
          rw [hcd, hh, cleanLoop_dotdot _ _ _ _ _ hb]
          split
          · rename_i hlt
            rcases List.eq_nil_or_concat segs with hnil | ⟨segs0, s, hsegs⟩
            · rw [hnil] at hlt
              exact absurd hlt (Nat.lt_irrefl _)
            · have hs : isName s := h s (by rw [hsegs]; simp)
              have h0 : ∀ s ∈ segs0, isName s := fun t ht => h t (by rw [hsegs]; simp [ht])
              have htake : (Canon k segs).take
                  (backtrack (Canon k segs) (Canon k []).length ((Canon k segs).length - 1)) =
                  Canon k segs0 := by
                rw [hsegs, List.concat_eq_append, Canon_snoc]
                split
                · rename_i hk
                  rw [hk.1, Canon_zero_nil]
                  have hpos : 0 < s.length := List.length_pos.mpr hs.1
                  have hbt : backtrack s 0 (s.length - 1) = 0 :=
                    backtrack_name s hs.2.1 (s.length - 1) (by omega)
                  rw [List.length_nil, hbt, hk.2, Canon_zero_nil]
                  rfl
                · have hlen : (Canon k segs0 ++ [slash] ++ s).length - 1 =
                      (Canon k segs0).length + s.length := by
                    simp only [List.length_append, List.length_singleton]; omega
                  rw [hlen, List.append_assoc, List.singleton_append,
                    backtrack_after_slash _ _ _ hs.2.1 (Canon_dd_le k segs0) _ (Nat.le_refl _)]
                  simp
              rw [htake]
              exact ih rest2 k segs0 h0
          · rename_i hlt
            have hsegs : segs = [] := by
              rcases List.eq_nil_or_concat segs with hnil | ⟨segs0, s, hsegs⟩
              · exact hnil
              · exfalso
                apply hlt
                rw [hsegs, List.concat_eq_append]
                exact Canon_dd_lt k segs0 s (h s (by rw [hsegs]; simp)).1
            subst hsegs
            rw [if_pos rfl, ← Canon_succ]
            exact ih rest2 (k + 1) [] h
      · have hname := takeWhile_isName c rest1 hc h2 h3
        have hb := dropWhile_boundary (c :: rest1)
        have hsplit := List.takeWhile_append_dropWhile (fun b => b != slash) (c :: rest1)
        rw [← hsplit, cleanLoop_name _ _ _ _ _ _ hname hb]
        have hout := Canon_push k segs (fun s hs => (h s hs).1)
          ((c :: rest1).takeWhile (fun b => b != slash))
        rw [hout]
        apply ih
        intro s hs
        rcases List.mem_append.mp hs with hs | hs
        · exact h s hs
        · rw [List.mem_singleton.mp hs]; exact hname

theorem Join_cons (e : GoString) (l : List GoString) (sep : GoString) :
    Join (e :: l) sep = e ++ (if l = [] then [] else sep ++ Join l sep) := by
  cases l with
  | nil => simp [Join]
  | cons f l => simp [Join_cons_cons, List.append_assoc]

/-- The loop of `path.Clean` over names joined by separators appends them to the buffer. -/
theorem cleanLoop_names (names : List GoString) :
    ∀ (fuel k : Nat) (segs0 : List GoString) (dd : Nat),
      (∀ s ∈ names, isName s) → (∀ s ∈ segs0, isName s) →
      (Join names [slash]).length ≤ fuel →
      cleanLoop false fuel (Join names [slash]) (Canon k segs0) dd =
        Canon k (segs0 ++ names) := by
  induction names with
  | nil =>
    intro fuel k segs0 dd _ _ _
    simp [Join, cleanLoop_nil]
  | cons s names ih =>
    intro fuel k segs0 dd hn h0 hfuel
    have hs : isName s := hn s (List.mem_cons_self _ _)
    have hn1 : ∀ t ∈ names, isName t := fun t ht => hn t (List.mem_cons_of_mem _ ht)
    have hpos : 0 < s.length := List.length_pos.mpr hs.1
    rw [Join_cons] at hfuel ⊢
    have h01 : ∀ t ∈ segs0 ++ [s], isName t := by
      intro t ht
      rcases List.mem_append.mp ht with ht | ht
      · exact h0 t ht
      · rw [List.mem_singleton.mp ht]; exact hs
    cases fuel with
    | zero => simp only [List.length_append] at hfuel; omega
    | succ f =>
      by_cases hnil : names = []
      · subst hnil
        simp only [if_true]
        rw [cleanLoop_name _ _ _ _ _ _ hs (Or.inl rfl), cleanLoop_nil,
          Canon_push k segs0 (fun t ht => (h0 t ht).1)]
      · simp only [hnil, if_false, List.singleton_append] at hfuel ⊢
        rw [cleanLoop_name _ _ _ (slash :: Join names [slash]) _ _ hs (Or.inr rfl),
          Canon_push k segs0 (fun t ht => (h0 t ht).1)]
        cases f with
        | zero => simp only [List.length_append, List.length_cons] at hfuel; omega
        | succ g =>
          rw [cleanLoop_slash, ih g k (segs0 ++ [s]) dd hn1 h01]
          · simp
          · simp only [List.length_append, List.length_cons] at hfuel; omega

/-- The loop of `path.Clean` over `j` elements `..` and names, joined by separators, started
on a buffer of `..` elements only, appends them to the buffer. -/
theorem cleanLoop_dotdots (j : Nat) :
    ∀ (fuel k : Nat) (names : List GoString), (∀ s ∈ names, isName s) →
      (Join (List.replicate j [dot, dot] ++ names) [slash]).length ≤ fuel →
      cleanLoop false fuel (Join (List.replicate j [dot, dot] ++ names) [slash])
        (Canon k []) (Canon k []).length = Canon (k + j) names := by
  induction j with
  | zero =>
    intro fuel k names hn hfuel
    simp only [List.replicate_zero, List.nil_append] at hfuel ⊢
    rw [cleanLoop_names names fuel k [] _ hn (by simp) hfuel]
    simp
  | succ j ih =>
    intro fuel k names hn hfuel
    simp only [List.replicate_succ, List.cons_append] at hfuel ⊢
    rw [Join_cons] at hfuel ⊢
    have hstep : ∀ (f : Nat) (rest : GoString), atBoundary rest →
        cleanLoop false (f + 1) ([dot, dot] ++ rest) (Canon k []) (Canon k []).length =
          cleanLoop false f rest (Canon (k + 1) []) (Canon (k + 1) []).length := by
      intro f rest hb
      show cleanLoop false (f + 1) (dot :: dot :: rest) _ _ = _
      rw [cleanLoop_dotdot _ _ _ _ _ hb, if_neg (Nat.lt_irrefl _), if_pos rfl, ← Canon_succ]
    cases fuel with
    | zero => simp only [List.length_append, List.length_cons] at hfuel; omega
    | succ f =>
      by_cases hnil : List.replicate j [dot, dot] ++ names = []
      · simp only [hnil, if_true]
        rw [hstep f [] (Or.inl rfl), cleanLoop_nil]
        simp only [List.append_eq_nil, List.replicate_eq_nil_iff] at hnil
        rw [hnil.1, hnil.2]
      · simp only [hnil, if_false, List.singleton_append] at hfuel ⊢
        rw [hstep f (slash :: Join (List.replicate j [dot, dot] ++ names) [slash])
          (Or.inr rfl)]
        cases f with
        | zero => simp only [List.length_append, List.length_cons] at hfuel; omega
        | succ g =>
          rw [cleanLoop_slash, ih g (k + 1) names hn]
          · congr 1; omega
          · simp only [List.length_append, List.length_cons] at hfuel; omega

theorem Canon_head (k : Nat) (segs : List GoString) (h : ∀ s ∈ segs, isName s) :
    (Canon k segs).head? ≠ some slash := by
  unfold Canon
  cases k with
  | succ k =>
    simp only [List.replicate_succ, List.cons_append]
    rw [Join_head _ _ _ (by simp)]
    decide
  | zero =>
    cases segs with
    | nil => simp [Join]
    | cons s segs =>
      have hs := h s (List.mem_cons_self _ _)
      simp only [List.replicate_zero, List.nil_append]
      rw [Join_head _ _ _ hs.1]
      intro hh
      cases s with
      | nil => simp at hh
      | cons c s =>
        simp only [List.head?_cons, Option.some.injEq] at hh
        exact hs.2.1 (by simp [hh])

theorem Canon_getLast (k : Nat) (segs : List GoString) (h : ∀ s ∈ segs, isName s) :
    (Canon k segs).getLast? ≠ some slash := by
  have key : ∀ (l : List GoString), (∀ e ∈ l, isElem e) →
      (Join l [slash]).getLast? ≠ some slash := by
    intro l hl
    rcases List.eq_nil_or_concat l with hnil | ⟨l0, s, hls⟩
    · subst hnil; simp [Join]
    · rw [List.concat_eq_append] at hls
      have hs : isElem s := hl s (by rw [hls]; simp)
      have hlast : ∀ (pre : GoString), (pre ++ s).getLast? ≠ some slash := by
        intro pre hh
        rw [List.getLast?_append_of_ne_nil _ hs.1] at hh
        exact hs.2 (List.mem_of_getLast?_eq_some hh)
      rw [hls, Join_snoc]
      split
      · simpa using hlast []
      · exact hlast _
  apply key
  intro e he
  rcases List.mem_append.mp he with he | he
  · rw [(List.mem_replicate.mp he).2]
    exact ⟨by simp, by decide⟩
  · exact ⟨(h e he).1, (h e he).2.1⟩

/-- `path.Clean` leaves an unrooted path in canonical form as it is. -/
theorem Clean_Canon (k : Nat) (segs : List GoString) (h : ∀ s ∈ segs, isName s)
    (hne : Canon k segs ≠ []) : Clean (Canon k segs) = Canon k segs := by
  have hhead := Canon_head k segs h
  have hloop := cleanLoop_dotdots k (Canon k segs).length 0 segs h (Nat.le_refl _)
  rw [Canon_zero_nil, Nat.zero_add] at hloop
  have hlen : (Canon k segs).length ≠ 0 := fun h0 => hne (List.length_eq_zero.mp h0)
  unfold Clean
  rw [if_neg hne]
  simp only [hhead, decide_False, Bool.false_eq_true, if_false]
  change (if (cleanLoop false (Canon k segs).length (Canon k segs) [] 0).length = 0 then _
    else _) = _
  rw [show cleanLoop false (Canon k segs).length (Canon k segs) [] 0 = Canon k segs from hloop,
    if_neg hlen]

/-- On a path that does not begin with a separator, `path.Clean` returns `.` or an
unrooted path in canonical form. -/
theorem Clean_unrooted (y : GoString) (hy : y.head? ≠ some slash) :
    Clean y = [dot] ∨
      ∃ (k : Nat) (segs : List GoString), (∀ s ∈ segs, isName s) ∧ Canon k segs ≠ [] ∧
        Clean y = Canon k segs := by
  unfold Clean
  split
  · exact Or.inl rfl
  · simp only [hy, decide_False, Bool.false_eq_true, if_false]
    obtain ⟨k, segs, hsegs, hloop⟩ := cleanLoop_canon y.length y 0 [] (by simp)
    rw [Canon_zero_nil] at hloop
    simp only [List.length_nil] at hloop
    rw [hloop]
    split
    · exact Or.inl rfl
    · rename_i hlen
      exact Or.inr ⟨k, segs, hsegs, fun h0 => hlen (by rw [h0]; rfl), rfl⟩

/-! ## The path normaliser -/

theorem backtrack_ge (out : GoString) (dd : Nat) :
    ∀ w, dd ≤ w → dd ≤ backtrack out dd w := by
  intro w
  induction w with
  | zero => intro h; simpa [backtrack] using h
  | succ w ih =>
    intro h
    rw [backtrack]
    split
    · rename_i hc
      exact ih (by omega)
    · exact h

/-- Started on a buffer that begins with the separator, with `dotdot = 1`, the loop of
`path.Clean` for a rooted path ends on a buffer that begins with the separator. -/
theorem cleanLoop_rooted_head (fuel : Nat) :
    ∀ (rest out : GoString), out.head? = some slash →
      (cleanLoop true fuel rest out 1).head? = some slash := by
  induction fuel with
  | zero => intro rest out h; exact h
  | succ fuel ih =>
    intro rest out h
    cases rest with
    | nil => exact h
    | cons c rest1 =>
      cases out with
      | nil => simp at h
      | cons o out1 =>
        simp only [List.head?_cons, Option.some.injEq] at h
        subst h
        simp only [cleanLoop]
        split
        · exact ih _ _ rfl
        · split
          · exact ih _ _ rfl
          · split
            · split
              · rename_i hlt
                apply ih
                have hge := backtrack_ge (slash :: out1) 1 ((slash :: out1).length - 1)
                  (by simp only [List.length_cons] at hlt ⊢; omega)
                cases hbt : backtrack (slash :: out1) 1 ((slash :: out1).length - 1) with
                | zero => rw [hbt] at hge; omega
                | succ n => rfl
              · split
                · rename_i hf; simp at hf
                · exact ih _ _ rfl
            · apply ih
              split <;> rfl

theorem Clean_rooted_head (y : GoString) (hy : y.head? = some slash) :
    (Clean y).head? = some slash := by
  have hne : y ≠ [] := by intro h; rw [h] at hy; simp at hy
  have hloop := cleanLoop_rooted_head y.length y.tail [slash] rfl
  unfold Clean
  rw [if_neg hne]
  simp only [hy, decide_True, if_true]
  split
  · rename_i h0
    rw [List.length_eq_zero.mp h0] at hloop
    simp at hloop
  · exact hloop

theorem HasPrefix_slash (x : GoString) : HasPrefix x [slash] = true ↔ x.head? = some slash := by
  cases x with
  | nil => simp [HasPrefix]
  | cons c x => simp [HasPrefix]

theorem TrimPrefix_nil (x : GoString) : TrimPrefix x [] = x := by
  simp [TrimPrefix, HasPrefix]

theorem TrimPrefix_slash_of_unrooted (x : GoString) (hx : x.head? ≠ some slash) :
    TrimPrefix x [slash] = x := by
  have h : HasPrefix x [slash] = false := by
    rw [← Bool.not_eq_true, HasPrefix_slash]
    exact hx
  simp [TrimPrefix, h]

theorem TrimPrefix_append (r s : GoString) : TrimPrefix (r ++ s) r = s := by
  simp [TrimPrefix, HasPrefix]

theorem relativePath_under_root (r p : GoString) :
    relativePath (r ++ [slash] ++ p) r = Clean p := by
  unfold relativePath
  simp only
  rw [List.append_assoc, TrimPrefix_append]
  have h := TrimPrefix_append [slash] p
  rw [h]

theorem Clean_idem_unrooted (y : GoString) (hy : y.head? ≠ some slash) :
    Clean (Clean y) = Clean y := by
  rcases Clean_unrooted y hy with h | ⟨k, segs, hsegs, hne, h⟩
  · rw [h]; decide
  · rw [h]; exact Clean_Canon k segs hsegs hne

theorem Clean_unrooted_ends (y : GoString) (hy : y.head? ≠ some slash) :
    (Clean y).head? ≠ some slash ∧ (Clean y).getLast? ≠ some slash := by
  rcases Clean_unrooted y hy with h | ⟨k, segs, hsegs, _, h⟩
  · rw [h]; decide
  · rw [h]; exact ⟨Canon_head k segs hsegs, Canon_getLast k segs hsegs⟩

/-- `relativePath` begins with the separator exactly when its argument to `path.Clean`
does. -/
theorem relativePath_head (p r : GoString) :
    (relativePath p r).head? = some slash ↔
      (TrimPrefix (TrimPrefix p r) [slash]).head? = some slash := by
  unfold relativePath
  simp only
  constructor
  · intro h
    by_contra hy
    exact (Clean_unrooted_ends _ hy).1 h
  · exact Clean_rooted_head _

/-- C7, counterexample.  For the path `/var/www//x.md` under the root `/var/www` the
identifier is `/x.md`, and `relativePath` applied to it with the empty root gives `x.md`. -/
theorem relativePath_not_idempotent :
    relativePath (ascii "/var/www//x.md") (ascii "/var/www") = ascii "/x.md" ∧
    relativePath (relativePath (ascii "/var/www//x.md") (ascii "/var/www")) (ascii "") =
      ascii "x.md" ∧
    relativePath (relativePath (ascii "/var/www//x.md") (ascii "/var/www")) (ascii "") ≠
      relativePath (ascii "/var/www//x.md") (ascii "/var/www") := by
  decide

/-- C7, amended.  For every file path p and root r such that the identifier
`relativePath(p, r)` does not begin with the separator,
`relativePath(relativePath(p, r), "") = relativePath(p, r)`. -/
theorem relativePath_idempotent (p r : GoString)
    (h : HasPrefix (relativePath p r) [slash] = false) :
    relativePath (relativePath p r) [] = relativePath p r := by
  have hhead : (relativePath p r).head? ≠ some slash := by
    intro hh
    rw [← HasPrefix_slash, h] at hh
    cases hh
  have hy : (TrimPrefix (TrimPrefix p r) [slash]).head? ≠ some slash :=
    fun hh => hhead ((relativePath_head p r).mpr hh)
  have hstep : relativePath (relativePath p r) [] = Clean (relativePath p r) := by
    have hdef : ∀ x : GoString,
        relativePath x [] = Clean (TrimPrefix (TrimPrefix x []) [slash]) := fun _ => rfl
    rw [hdef, TrimPrefix_nil, TrimPrefix_slash_of_unrooted _ hhead]
  rw [hstep]
  exact Clean_idem_unrooted _ hy

theorem relativePath_idempotent_witness :
    HasPrefix (relativePath (ascii "/var/www/notes/../a.md") (ascii "/var/www")) [slash] =
      false ∧
    relativePath (relativePath (ascii "/var/www/notes/../a.md") (ascii "/var/www")) [] =
      relativePath (ascii "/var/www/notes/../a.md") (ascii "/var/www") :=
  ⟨by decide,
    relativePath_idempotent (ascii "/var/www/notes/../a.md") (ascii "/var/www") (by decide)⟩

theorem splitPath_ne_nil (p : GoString) : splitPath p ≠ [] := by
  cases p with
  | nil => simp [splitPath]
  | cons c cs =>
    rw [splitPath]
    split
    · simp
    · split <;> simp

theorem Join_splitPath (p : GoString) : Join (splitPath p) [slash] = p := by
  induction p with
  | nil => rfl
  | cons c cs ih =>
    rw [splitPath]
    split
    · rename_i hc
      rw [Join_cons, if_neg (splitPath_ne_nil cs), ih, hc]
      rfl
    · cases hsp : splitPath cs with
      | nil => exact absurd hsp (splitPath_ne_nil cs)
      | cons s ss =>
        rw [hsp] at ih
        rw [Join_cons] at ih ⊢
        rw [List.cons_append, ih]

theorem splitPath_no_slash (p : GoString) : ∀ s ∈ splitPath p, slash ∉ s := by
  induction p with
  | nil => intro s hs; simp [splitPath] at hs; simp [hs]
  | cons c cs ih =>
    intro s hs
    rw [splitPath] at hs
    split at hs
    · rcases List.mem_cons.mp hs with h | h
      · simp [h]
      · exact ih s h
    · rename_i hc
      cases hsp : splitPath cs with
      | nil => exact absurd hsp (splitPath_ne_nil cs)
      | cons t ss =>
        rw [hsp] at hs ih
        rcases List.mem_cons.mp hs with h | h
        · rw [h]
          intro hmem
          rcases List.mem_cons.mp hmem with h1 | h1
          · exact hc h1.symm
          · exact ih t (List.mem_cons_self _ _) h1
        · exact ih s (List.mem_cons_of_mem _ h)

theorem Clean_names (names : List GoString) (h : ∀ s ∈ names, isName s) (hne : names ≠ []) :
    Clean (Join names [slash]) = Join names [slash] := by
  have hc : Canon 0 names = Join names [slash] := by simp [Canon]
  rw [← hc]
  apply Clean_Canon 0 names h
  intro h0
  exact hne (Canon_eq_nil 0 names (fun s hs => (h s hs).1) h0).2

theorem Clean_LexicallyClean (p : GoString) (hp : LexicallyClean p) : Clean p = p := by
  have h := Clean_names (splitPath p)
    (fun s hs => ⟨(hp s hs).1, splitPath_no_slash p s hs, (hp s hs).2.1, (hp s hs).2.2⟩)
    (splitPath_ne_nil p)
  rw [Join_splitPath] at h
  exact h

/-- C1.  For every root r and every lexically clean relative path p without `.` and `..`
segments, `relativePath(r + "/" + p, r) = p`. -/
theorem relativePath_strips_root (r p : GoString) (hp : LexicallyClean p) :
    relativePath (r ++ [slash] ++ p) r = p := by
  rw [relativePath_under_root, Clean_LexicallyClean p hp]

theorem relativePath_strips_root_witness :
    LexicallyClean (ascii "a/b.md") ∧
    relativePath (ascii "/root/a/b.md") (ascii "/root") = ascii "a/b.md" ∧
    LexicallyClean (ascii "notes/setup.md") ∧
    relativePath (ascii "/var/www/notes/setup.md") (ascii "/var/www") =
      ascii "notes/setup.md" :=
  ⟨by decide, relativePath_strips_root (ascii "/root") (ascii "a/b.md") (by decide),
    by decide, relativePath_strips_root (ascii "/var/www") (ascii "notes/setup.md") (by decide)⟩

theorem splitPath_elem_append (e J : GoString) (he : slash ∉ e) :
    splitPath (e ++ slash :: J) = e :: splitPath J := by
  induction e with
  | nil => simp [splitPath]
  | cons c e ih =>
    have hc : c ≠ slash := fun h => he (by simp [h])
    have he1 : slash ∉ e := fun h => he (List.mem_cons_of_mem _ h)
    rw [List.cons_append, splitPath, if_neg hc, ih he1]

theorem splitPath_elem (e : GoString) (he : slash ∉ e) : splitPath e = [e] := by
  induction e with
  | nil => rfl
  | cons c e ih =>
    have hc : c ≠ slash := fun h => he (by simp [h])
    have he1 : slash ∉ e := fun h => he (List.mem_cons_of_mem _ h)
    rw [splitPath, if_neg hc, ih he1]

theorem splitPath_Join (l : List GoString) (hl : l ≠ []) (h : ∀ e ∈ l, slash ∉ e) :
    splitPath (Join l [slash]) = l := by
  induction l with
  | nil => exact absurd rfl hl
  | cons e l ih =>
    have he : slash ∉ e := h e (List.mem_cons_self _ _)
    rw [Join_cons]
    by_cases hnil : l = []
    · subst hnil
      simp only [if_true, List.append_nil]
      exact splitPath_elem e he
    · rw [if_neg hnil, List.singleton_append, splitPath_elem_append e _ he,
        ih hnil (fun x hx => h x (List.mem_cons_of_mem _ hx))]

/-- The paths `LexicallyClean` holds of are the paths `path.Clean` leaves as they are that
do not begin with a separator and have no segment `.` or `..`. -/
theorem LexicallyClean_iff (p : GoString) :
    LexicallyClean p ↔
      Clean p = p ∧ p.head? ≠ some slash ∧ ∀ s ∈ splitPath p, s ≠ [dot] ∧ s ≠ [dot, dot] := by
  constructor
  · intro hp
    refine ⟨Clean_LexicallyClean p hp, ?_, fun s hs => (hp s hs).2⟩
    intro hh
    cases p with
    | nil => simp at hh
    | cons c cs =>
      simp only [List.head?_cons, Option.some.injEq] at hh
      have hmem : ([] : GoString) ∈ splitPath (c :: cs) := by
        rw [splitPath, if_pos hh]; simp
      exact (hp [] hmem).1 rfl
  · rintro ⟨hfix, hhead, hdots⟩
    rcases Clean_unrooted p hhead with h | ⟨k, segs, hsegs, hne, h⟩
    · rw [hfix] at h
      have hmem : [dot] ∈ splitPath p := by rw [h]; decide
      exact absurd rfl (hdots [dot] hmem).1
    · rw [hfix] at h
      have hall : ∀ e ∈ List.replicate k [dot, dot] ++ segs, slash ∉ e := by
        intro e he
        rcases List.mem_append.mp he with he | he
        · rw [(List.mem_replicate.mp he).2]; decide
        · exact (hsegs e he).2.1
      have hlist : List.replicate k [dot, dot] ++ segs ≠ [] := by
        intro h0
        apply hne
        unfold Canon
        rw [h0]; rfl
      have hsplit : splitPath p = List.replicate k [dot, dot] ++ segs := by
        rw [h]; exact splitPath_Join _ hlist hall
      intro s hs
      rw [hsplit] at hs
      rcases List.mem_append.mp hs with hs1 | hs1
      · have hd : s = [dot, dot] := (List.mem_replicate.mp hs1).2
        have := (hdots s (by rw [hsplit]; exact hs)).2
        exact absurd hd this
      · exact ⟨(hsegs s hs1).1, (hsegs s hs1).2.2.1, (hsegs s hs1).2.2.2⟩

/-! ## The watcher and the index operations -/

theorem processUpdate_Config (env : Collaborators) (index : GnosisIndex) (path dir : GoString) :
    (processUpdate env index path dir).Config = index.Config := by
  unfold processUpdate
  simp only
  split <;> rfl

theorem processUpdate_issued (env : Collaborators) (index : GnosisIndex)
    (path dir : GoString) :
    (processUpdate env index path dir).issued =
      index.issued ++ [StoreOp.update path (relativePath path dir)] := by
  unfold processUpdate
  simp only
  split <;> rfl

theorem processDelete_Config (index : GnosisIndex) (path dir : GoString) :
    (processDelete index path dir).Config = index.Config := rfl

theorem processDelete_issued (index : GnosisIndex) (path dir : GoString) :
    (processDelete index path dir).issued =
      index.issued ++ [StoreOp.delete (relativePath path dir)] := rfl

theorem flushEvent_Config (env : Collaborators) (root : GoString) (index : GnosisIndex)
    (ev : fsnotify.Event) : (flushEvent env root index ev).Config = index.Config := by
  unfold flushEvent
  split
  · split
    · exact processDelete_Config _ _ _
    · split
      · exact processUpdate_Config _ _ _ _
      · rfl
  · rfl

theorem flushEvent_issued (env : Collaborators) (root : GoString) (index : GnosisIndex)
    (ev : fsnotify.Event) :
    (flushEvent env root index ev).issued =
      index.issued ++ owedFor index.Config.WatchExtension root ev := by
  unfold flushEvent owedFor
  split
  · split
    · exact processDelete_issued _ _ _
    · split
      · exact processUpdate_issued _ _ _ _
      · simp
  · simp

theorem flush_Config (env : Collaborators) (root : GoString) (q : List fsnotify.Event) :
    ∀ index : GnosisIndex, (q.foldl (flushEvent env root) index).Config = index.Config := by
  induction q with
  | nil => intro index; rfl
  | cons ev q ih =>
    intro index
    rw [List.foldl_cons, ih, flushEvent_Config]

theorem flush_issued (env : Collaborators) (root : GoString) (q : List fsnotify.Event) :
    ∀ index : GnosisIndex,
      (q.foldl (flushEvent env root) index).issued =
        index.issued ++ owedForQueue index.Config.WatchExtension root q := by
  induction q with
  | nil => intro index; simp [owedForQueue]
  | cons ev q ih =>
    intro index
    rw [List.foldl_cons, ih, flushEvent_issued, flushEvent_Config, owedForQueue,
      List.append_assoc]

/-- When the idle timer expires, the goroutine continues with an empty queue, and the calls
of `processDelete` and `processUpdate` it has made are, in arrival order over the queue,
those owed for each event. -/
theorem flush_dispatch (env : Collaborators) (root : GoString) (st : WatcherState) :
    ∃ st1 : WatcherState,
      watcherStep env root st Select.idleTimer = some st1 ∧
      st1.queuedEvents = [] ∧
      st1.index.issued =
        st.index.issued ++ owedForQueue st.index.Config.WatchExtension root st.queuedEvents :=
  ⟨_, rfl, rfl, flush_issued env root st.queuedEvents st.index⟩

theorem generateWikiFromFile_eq_build (env : Collaborators) (index : GnosisIndex)
    (filePath : GoString) :
    generateWikiFromFile env index filePath = build env index.Config.Restricted filePath := by
  unfold generateWikiFromFile build
  cases env.LoadPage filePath with
  | none => rfl
  | some pdata => rfl

theorem applyCalls_append (store : GoString → Option indexedPage) (a b : List StoreCall) :
    applyCalls store (a ++ b) = applyCalls (applyCalls store a) b := by
  simp [applyCalls, List.foldl_append]

theorem processUpdate_calls (env : Collaborators) (index : GnosisIndex)
    (path dir : GoString) :
    (processUpdate env index path dir).calls =
        index.calls ++
          (match build env index.Config.Restricted path with
            | none => []
            | some document => [StoreCall.Index (relativePath path dir) document]) ∧
    (processUpdate env index path dir).TrueIndex =
        applyCalls index.TrueIndex
          (match build env index.Config.Restricted path with
            | none => []
            | some document => [StoreCall.Index (relativePath path dir) document]) := by
  unfold processUpdate
  simp only [generateWikiFromFile_eq_build]
  cases build env index.Config.Restricted path with
  | none => exact ⟨by simp, rfl⟩
  | some document => exact ⟨rfl, rfl⟩

theorem processDelete_calls (index : GnosisIndex) (path dir : GoString) :
    (processDelete index path dir).calls =
        index.calls ++ [StoreCall.Delete (relativePath path dir)] ∧
    (processDelete index path dir).TrueIndex =
        applyCalls index.TrueIndex [StoreCall.Delete (relativePath path dir)] :=
  ⟨rfl, rfl⟩

theorem flushEvent_calls (env : Collaborators) (root : GoString) (index : GnosisIndex)
    (ev : fsnotify.Event) :
    (flushEvent env root index ev).calls =
        index.calls ++
          owedCalls env index.Config.Restricted index.Config.WatchExtension root ev ∧
    (flushEvent env root index ev).TrueIndex =
        applyCalls index.TrueIndex
          (owedCalls env index.Config.Restricted index.Config.WatchExtension root ev) := by
  unfold flushEvent owedCalls
  split
  · split
    · exact processDelete_calls _ _ _
    · split
      · exact processUpdate_calls _ _ _ _
      · exact ⟨by simp, rfl⟩
  · exact ⟨by simp, rfl⟩

theorem flush_calls (env : Collaborators) (root : GoString) (q : List fsnotify.Event) :
    ∀ index : GnosisIndex,
      (q.foldl (flushEvent env root) index).calls =
          index.calls ++
            owedCallsQueue env index.Config.Restricted index.Config.WatchExtension root q ∧
      (q.foldl (flushEvent env root) index).TrueIndex =
          applyCalls index.TrueIndex
            (owedCallsQueue env index.Config.Restricted index.Config.WatchExtension root q) := by
  induction q with
  | nil => intro index; exact ⟨by simp [owedCallsQueue], rfl⟩
  | cons ev q ih =>
    intro index
    obtain ⟨h1, h2⟩ := ih (flushEvent env root index ev)
    obtain ⟨e1, e2⟩ := flushEvent_calls env root index ev
    rw [List.foldl_cons, h1, h2, flushEvent_Config, e1, e2, owedCallsQueue,
      applyCalls_append, List.append_assoc]
    exact ⟨rfl, rfl⟩

/-- C2, counterexample.  The queue holds one write event for `/var/www/draft.md`, whose
name ends with the extension; the page is tagged `draft`, which is restricted.  The flush
makes no call on the index engine and the store holds no document under `draft.md`. -/
theorem flush_restricted_write_no_store_call :
    HasSuffix writeDraft.Name emptyIndex.Config.WatchExtension = true ∧
    writeDraft.Op = fsnotify.Write ∧
    (watcherStep draftPages (ascii "/var/www")
        { queuedEvents := [writeDraft], index := emptyIndex } Select.idleTimer).map
      (fun st => (st.index.calls, st.index.TrueIndex (ascii "draft.md"))) =
        some ([], none) := by
  decide

/-- C2, amended.  When the idle timer expires with queue q, the calls made on the index
engine are exactly, in arrival order over q, for each event whose name ends with the
configured extension: a delete of the relative id if its operation is remove or rename; an
upsert of the rebuilt document under the relative id if its operation is create or write
and the build gives a document, and nothing if the file cannot be loaded or is
tag-restricted; nothing for any other operation and for any other name.  The store is the
earlier store with these calls applied, and the queue is empty after the flush. -/
theorem flush_store_calls (env : Collaborators) (root : GoString) (st : WatcherState) :
    ∃ st1 : WatcherState,
      watcherStep env root st Select.idleTimer = some st1 ∧
      st1.queuedEvents = [] ∧
      st1.index.calls =
        st.index.calls ++
          owedCallsQueue env st.index.Config.Restricted st.index.Config.WatchExtension root
            st.queuedEvents ∧
      st1.index.TrueIndex =
        applyCalls st.index.TrueIndex
          (owedCallsQueue env st.index.Config.Restricted st.index.Config.WatchExtension root
            st.queuedEvents) :=
  ⟨_, rfl, rfl, (flush_calls env root st.queuedEvents st.index).1,
    (flush_calls env root st.queuedEvents st.index).2⟩

theorem runWatcher_events (env : Collaborators) (root : GoString)
    (evs : List fsnotify.Event) :
    ∀ st : WatcherState,
      runWatcher env root st (evs.map Select.event) =
        some { st with queuedEvents := st.queuedEvents ++ evs } := by
  induction evs with
  | nil => intro st; simp [runWatcher]
  | cons ev evs ih =>
    intro st
    simp only [List.map_cons, runWatcher, watcherStep]
    rw [ih]
    simp

theorem runWatcher_append (env : Collaborators) (root : GoString) (xs ys : List Select) :
    ∀ st st1 : WatcherState, runWatcher env root st xs = some st1 →
      runWatcher env root st (xs ++ ys) = runWatcher env root st1 ys := by
  induction xs with
  | nil =>
    intro st st1 h
    simp only [runWatcher, Option.some.injEq] at h
    simp [h]
  | cons x xs ih =>
    intro st st1 h
    simp only [runWatcher, List.cons_append] at h ⊢
    cases hx : watcherStep env root st x with
    | none => simp [hx] at h
    | some st2 =>
      simp only [hx] at h ⊢
      exact ih st2 st1 h

theorem owedForQueue_writes (ext root f : GoString) (hf : HasSuffix f ext = true) (N : Nat) :
    owedForQueue ext root (List.replicate N { Name := f, Op := fsnotify.Write }) =
      List.replicate N (StoreOp.update f (relativePath f root)) := by
  induction N with
  | zero => rfl
  | succ n ih =>
    simp only [List.replicate_succ, owedForQueue, ih]
    simp [owedFor, hf, fsnotify.Write, fsnotify.Remove, fsnotify.Rename, fsnotify.Create]

theorem rebuildsOf_append (f : GoString) (a b : List StoreOp) :
    rebuildsOf f (a ++ b) = rebuildsOf f a + rebuildsOf f b := by
  simp [rebuildsOf]

theorem rebuildsOf_replicate (f id : GoString) (N : Nat) :
    rebuildsOf f (List.replicate N (StoreOp.update f id)) = N := by
  simp [rebuildsOf]

/-- C3, counterexample.  Two write events for `/var/www/a.md`, queued before the idle
timer expires, are followed by a flush that rebuilds the file twice. -/
theorem debounce_two_writes_two_rebuilds :
    (runWatcher noPages (ascii "/var/www") { queuedEvents := [], index := emptyIndex }
        [Select.event writeA, Select.event writeA, Select.idleTimer]).map
      (fun st => rebuildsOf writeA.Name st.index.issued) = some 2 := by
  decide

/-- C3, amended.  For every N and every file whose name ends with the extension, N write
events for that file queued before the idle timer expires are followed by a flush that
issues exactly N rebuilds of that file, one for each queued event, and empties the queue. -/
theorem debounce_one_rebuild_per_event (env : Collaborators) (root f : GoString)
    (index : GnosisIndex) (N : Nat)
    (hf : HasSuffix f index.Config.WatchExtension = true) :
    ∃ st1 : WatcherState,
      runWatcher env root { queuedEvents := [], index := index }
        ((List.replicate N { Name := f, Op := fsnotify.Write }).map Select.event ++
          [Select.idleTimer]) = some st1 ∧
      st1.queuedEvents = [] ∧
      st1.index.issued =
        index.issued ++ List.replicate N (StoreOp.update f (relativePath f root)) ∧
      rebuildsOf f st1.index.issued = rebuildsOf f index.issued + N := by
  refine ⟨{ queuedEvents := []
            index := (List.replicate N { Name := f, Op := fsnotify.Write }).foldl
              (flushEvent env root) index }, ?_, rfl, ?_, ?_⟩
  · rw [runWatcher_append env root _ _ _ _ (runWatcher_events env root _ _)]
    simp only [runWatcher, watcherStep, List.nil_append]
  · simp only
    rw [flush_issued, owedForQueue_writes _ _ _ hf]
  · simp only
    rw [flush_issued, owedForQueue_writes _ _ _ hf, rebuildsOf_append, rebuildsOf_replicate]

theorem debounce_one_rebuild_per_event_witness :
    ∃ st1 : WatcherState,
      runWatcher noPages (ascii "/var/www") { queuedEvents := [], index := emptyIndex }
        ((List.replicate 3 { Name := ascii "/var/www/a.md", Op := fsnotify.Write }).map
          Select.event ++ [Select.idleTimer]) = some st1 ∧
      st1.queuedEvents = [] ∧
      st1.index.issued =
        emptyIndex.issued ++
          List.replicate 3
            (StoreOp.update (ascii "/var/www/a.md")
              (relativePath (ascii "/var/www/a.md") (ascii "/var/www"))) ∧
      rebuildsOf (ascii "/var/www/a.md") st1.index.issued =
        rebuildsOf (ascii "/var/www/a.md") emptyIndex.issued + 3 :=
  debounce_one_rebuild_per_event noPages (ascii "/var/www") (ascii "/var/www/a.md")
    emptyIndex 3 (by decide)

/-- C10.  For every queued event whose operation mask combines more than one kind, the body
of the flush loop leaves the index as it was: nothing is issued and the store is not
touched, whether or not the name ends with the extension. -/
theorem flush_ignores_combined_kinds (env : Collaborators) (root : GoString)
    (index : GnosisIndex) (ev : fsnotify.Event)
    (hkinds : 2 ≤ (fsnotify.kinds ev.Op).length) :
    flushEvent env root index ev = index := by
  have h4 : ev.Op ≠ fsnotify.Remove := by
    intro h; rw [h] at hkinds; revert hkinds; decide
  have h8 : ev.Op ≠ fsnotify.Rename := by
    intro h; rw [h] at hkinds; revert hkinds; decide
  have h1 : ev.Op ≠ fsnotify.Create := by
    intro h; rw [h] at hkinds; revert hkinds; decide
  have h2 : ev.Op ≠ fsnotify.Write := by
    intro h; rw [h] at hkinds; revert hkinds; decide
  simp [flushEvent, h1, h2, h4, h8]

theorem flush_ignores_combined_kinds_witness :
    2 ≤ (fsnotify.kinds (fsnotify.Create ||| fsnotify.Write)).length ∧
    flushEvent noPages (ascii "/var/www") emptyIndex
      { Name := ascii "/var/www/a.md", Op := fsnotify.Create ||| fsnotify.Write } =
        emptyIndex :=
  ⟨by decide,
    flush_ignores_combined_kinds noPages (ascii "/var/www") emptyIndex
      { Name := ascii "/var/www/a.md", Op := fsnotify.Create ||| fsnotify.Write }
      (by decide)⟩

theorem processUpdate_restricted (env : Collaborators) (index : GnosisIndex)
    (path dir : GoString) (pdata : PageMetadata) (hload : env.LoadPage path = some pdata)
    (htags : pdata.MatchedTag index.Config.Restricted = true) :
    (processUpdate env index path dir).TrueIndex = index.TrueIndex := by
  simp [processUpdate, generateWikiFromFile, hload, htags]

/-- C4, counterexample.  The store holds a document under `draft.md` from an earlier build;
the file is now tagged `draft`, which is restricted; after `processUpdate` the store still
holds that document. -/
theorem restricted_page_stays_in_store :
    draftPage.MatchedTag indexWithDraft.Config.Restricted = true ∧
    (processUpdate draftPages indexWithDraft (ascii "/var/www/draft.md")
        (ascii "/var/www")).TrueIndex
      (relativePath (ascii "/var/www/draft.md") (ascii "/var/www")) = some earlierDraft := by
  decide

/-- C4, amended.  For every store that holds no document under the relative id of a file,
after any number of runs of `processUpdate` on that file, at each of which the file loads
with tags that intersect the restricted set, the store holds no document under that id. -/
theorem restricted_page_not_added (envs : List Collaborators) (path dir : GoString) :
    ∀ index : GnosisIndex,
      (∀ env ∈ envs, ∃ pdata : PageMetadata,
        env.LoadPage path = some pdata ∧
        pdata.MatchedTag index.Config.Restricted = true) →
      index.TrueIndex (relativePath path dir) = none →
      (envs.foldl (fun ix env => processUpdate env ix path dir) index).TrueIndex
        (relativePath path dir) = none := by
  induction envs with
  | nil => intro index _ habsent; exact habsent
  | cons env envs ih =>
    intro index hres habsent
    rw [List.foldl_cons]
    obtain ⟨pdata, hload, htags⟩ := hres env (List.mem_cons_self _ _)
    apply ih
    · intro e he
      rw [processUpdate_Config]
      exact hres e (List.mem_cons_of_mem _ he)
    · rw [processUpdate_restricted env index path dir pdata hload htags]
      exact habsent

theorem restricted_page_not_added_witness :
    (∀ env ∈ [draftPages, draftPages], ∃ pdata : PageMetadata,
        env.LoadPage (ascii "/var/www/draft.md") = some pdata ∧
        pdata.MatchedTag emptyIndex.Config.Restricted = true) ∧
    emptyIndex.TrueIndex (relativePath (ascii "/var/www/draft.md") (ascii "/var/www")) = none ∧
    ([draftPages, draftPages].foldl
        (fun ix env => processUpdate env ix (ascii "/var/www/draft.md") (ascii "/var/www"))
        emptyIndex).TrueIndex
      (relativePath (ascii "/var/www/draft.md") (ascii "/var/www")) = none :=
  have h : ∀ env ∈ [draftPages, draftPages], ∃ pdata : PageMetadata,
      env.LoadPage (ascii "/var/www/draft.md") = some pdata ∧
      pdata.MatchedTag emptyIndex.Config.Restricted = true := by
    intro env henv
    refine ⟨draftPage, ?_, by decide⟩
    simp only [List.mem_cons, List.mem_singleton, List.not_mem_nil, or_false, or_self] at henv
    subst henv
    rfl
  ⟨h, rfl,
    restricted_page_not_added [draftPages, draftPages] (ascii "/var/www/draft.md")
      (ascii "/var/www") emptyIndex h rfl⟩

/-! ## The directory walker -/

mutual
theorem walkForIndexing_frame (env : Collaborators) :
    ∀ (dirEntries : List DirEntry) (path origPath : GoString) (index : GnosisIndex),
      (walkForIndexing env dirEntries path origPath index).Config = index.Config ∧
      (walkForIndexing env dirEntries path origPath index).openWatchers = index.openWatchers
  | [], _, _, _ => by simp [walkForIndexing]
  | dirEntry :: more, path, origPath, index => by
    rw [walkForIndexing]
    have h1 := walkEntry_frame env dirEntry path origPath index
    have h2 := walkForIndexing_frame env more path origPath
      (walkEntry env dirEntry path origPath index)
    exact ⟨h2.1.trans h1.1, h2.2.trans h1.2⟩
theorem walkEntry_frame (env : Collaborators) :
    ∀ (dirEntry : DirEntry) (path origPath : GoString) (index : GnosisIndex),
      (walkEntry env dirEntry path origPath index).Config = index.Config ∧
      (walkEntry env dirEntry path origPath index).openWatchers = index.openWatchers
  | DirEntry.dir name entries, path, origPath, index => by
    rw [walkEntry]
    exact walkForIndexing_frame env entries _ origPath index
  | DirEntry.file name, path, origPath, index => by
    rw [walkEntry]
    split
    · refine ⟨processUpdate_Config _ _ _ _, ?_⟩
      unfold processUpdate
      simp only
      split <;> rfl
    · exact ⟨rfl, rfl⟩
end

mutual
theorem matchingFiles_ne_nil (ext : GoString) :
    ∀ (dirEntries : List DirEntry), ∀ comps ∈ matchingFiles ext dirEntries, comps ≠ []
  | [] => by simp [matchingFiles]
  | dirEntry :: more => by
    intro comps h
    rw [matchingFiles] at h
    rcases List.mem_append.mp h with h | h
    · exact matchingFilesIn_ne_nil ext dirEntry comps h
    · exact matchingFiles_ne_nil ext more comps h
theorem matchingFilesIn_ne_nil (ext : GoString) :
    ∀ (dirEntry : DirEntry), ∀ comps ∈ matchingFilesIn ext dirEntry, comps ≠ []
  | DirEntry.file name => by
    intro comps h
    rw [matchingFilesIn] at h
    split at h
    · rw [List.mem_singleton.mp h]; simp
    · simp at h
  | DirEntry.dir name entries => by
    intro comps h
    rw [matchingFilesIn] at h
    obtain ⟨c, _, hc⟩ := List.mem_map.mp h
    rw [← hc]; simp
end

mutual
theorem matchingFiles_names (ext : GoString) :
    ∀ (dirEntries : List DirEntry), validEntries dirEntries = true →
      ∀ comps ∈ matchingFiles ext dirEntries, ∀ s ∈ comps, isName s
  | [] => by simp [matchingFiles]
  | dirEntry :: more => by
    intro hv comps h
    rw [validEntries, Bool.and_eq_true] at hv
    rw [matchingFiles] at h
    rcases List.mem_append.mp h with h | h
    · exact matchingFilesIn_names ext dirEntry hv.1 comps h
    · exact matchingFiles_names ext more hv.2 comps h
theorem matchingFilesIn_names (ext : GoString) :
    ∀ (dirEntry : DirEntry), validEntry dirEntry = true →
      ∀ comps ∈ matchingFilesIn ext dirEntry, ∀ s ∈ comps, isName s
  | DirEntry.file name => by
    intro hv comps h s hs
    rw [validEntry, decide_eq_true_eq] at hv
    rw [matchingFilesIn] at h
    split at h
    · rw [List.mem_singleton.mp h] at hs
      rw [List.mem_singleton.mp hs]; exact hv
    · simp at h
  | DirEntry.dir name entries => by
    intro hv comps h s hs
    rw [validEntry, Bool.and_eq_true, decide_eq_true_eq] at hv
    rw [matchingFilesIn] at h
    obtain ⟨c, hc, hcomps⟩ := List.mem_map.mp h
    rw [← hcomps] at hs
    rcases List.mem_cons.mp hs with hs | hs
    · rw [hs]; exact hv.1
    · exact matchingFiles_names ext entries hv.2 c hc s hs
end

theorem walkUpdate_below (path origPath name : GoString) (comps : List GoString)
    (hc : comps ≠ []) :
    walkUpdate (path ++ [slash] ++ name) origPath comps =
      walkUpdate path origPath (name :: comps) := by
  unfold walkUpdate
  rw [Join_cons, if_neg hc]
  simp only [List.append_assoc]

mutual
theorem walkForIndexing_issued (env : Collaborators) :
    ∀ (dirEntries : List DirEntry) (path origPath : GoString) (index : GnosisIndex),
      (walkForIndexing env dirEntries path origPath index).issued =
        index.issued ++
          (matchingFiles index.Config.WatchExtension dirEntries).map (walkUpdate path origPath)
  | [], _, _, _ => by simp [walkForIndexing, matchingFiles]
  | dirEntry :: more, path, origPath, index => by
    rw [walkForIndexing, walkForIndexing_issued env more path origPath,
      walkEntry_issued env dirEntry path origPath index,
      (walkEntry_frame env dirEntry path origPath index).1, matchingFiles, List.map_append,
      List.append_assoc]
theorem walkEntry_issued (env : Collaborators) :
    ∀ (dirEntry : DirEntry) (path origPath : GoString) (index : GnosisIndex),
      (walkEntry env dirEntry path origPath index).issued =
        index.issued ++
          (matchingFilesIn index.Config.WatchExtension dirEntry).map (walkUpdate path origPath)
  | DirEntry.dir name entries, path, origPath, index => by
    rw [walkEntry, walkForIndexing_issued env entries _ origPath index, matchingFilesIn,
      List.map_map]
    congr 1
    apply List.map_congr_left
    intro comps hcomps
    exact walkUpdate_below path origPath name comps (matchingFiles_ne_nil _ entries comps hcomps)
  | DirEntry.file name, path, origPath, index => by
    rw [walkEntry, matchingFilesIn]
    split
    · rw [processUpdate_issued]
      simp [walkUpdate, Join]
    · simp
end

/-- C6.  For every finite directory tree whose names are file-system names, and every root,
`walkForIndexing(root, root)` issues exactly one `processUpdate` for each non-directory
entry at any depth whose name ends with the configured extension, in the order of the
listings, with the identifier equal to the path components of the file below the root
joined by the separator, and issues nothing else. -/
theorem walk_completeness (env : Collaborators) (dirEntries : List DirEntry)
    (root : GoString) (index : GnosisIndex) (hv : validEntries dirEntries = true) :
    (walkForIndexing env dirEntries root root index).issued =
      index.issued ++
        (matchingFiles index.Config.WatchExtension dirEntries).map
          (fun comps =>
            StoreOp.update (root ++ [slash] ++ Join comps [slash]) (Join comps [slash])) := by
  rw [walkForIndexing_issued]
  congr 1
  apply List.map_congr_left
  intro comps hcomps
  unfold walkUpdate
  rw [relativePath_under_root,
    Clean_names comps (matchingFiles_names _ dirEntries hv comps hcomps)
      (matchingFiles_ne_nil _ dirEntries comps hcomps)]

theorem walk_completeness_witness :
    validEntries wwwTree = true ∧
    (walkForIndexing noPages wwwTree (ascii "/var/www") (ascii "/var/www") emptyIndex).issued =
      emptyIndex.issued ++
        (matchingFiles emptyIndex.Config.WatchExtension wwwTree).map
          (fun comps =>
            StoreOp.update (ascii "/var/www" ++ [slash] ++ Join comps [slash])
              (Join comps [slash])) :=
  ⟨by decide, walk_completeness noPages wwwTree (ascii "/var/www") emptyIndex (by decide)⟩

theorem openLoop_openWatchers (env : Collaborators) (fs : FileSystem)
    (dirs : List (GoString × GoString)) :
    ∀ index index1 : GnosisIndex, openLoop env fs dirs index = some index1 →
      index1.openWatchers =
        index.openWatchers ++
          dirs.map (fun kv => ({ watched := TrimSuffix kv.2 [slash] } : fsnotify.Watcher)) := by
  induction dirs with
  | nil =>
    intro index index1 h
    simp only [openLoop, Option.some.injEq] at h
    simp [h]
  | cons kv dirs ih =>
    intro index index1 h
    obtain ⟨key, dir⟩ := kv
    simp only [openLoop, startWatching] at h
    split at h
    · cases h
    · rename_i watcher hw
      split at hw
      · simp only [Option.some.injEq] at hw
        subst hw
        split at h
        · cases h
        · rename_i dirEntries _
          rw [ih _ _ h, (walkForIndexing_frame env dirEntries _ _ _).2]
          simp
      · cases hw

/-! ## `OpenIndex` and `CleanConfig` on the configurations of the tests -/

/-- C5, the code at the failing input.  With `WatchDirs` `{"/var/www/": "/"}`, on a file
system whose only directory is `/var/www`, `OpenIndex` watches and walks `""`, the URI
location `"/"` without its trailing separator, and the listing of `""` is fatal:
`/var/www` is neither watched nor walked.  With `/var/www/` as the URI location of a
directory that does not exist, `OpenIndex` returns with its one watcher on `/var/www` and
the files of `/var/www` indexed. -/
theorem OpenIndex_watches_uri_location :
    (OpenIndex noPages wwwOnly (BleveOpen.existing (fun _ => none)) none
        wwwSection).isFatal = true ∧
    (OpenIndex noPages wwwOnly (BleveOpen.existing (fun _ => none)) none
        swappedSection).index?.map
      (fun index => (index.openWatchers, index.issued)) =
        some ([{ watched := ascii "/var/www" }],
          [StoreOp.update (ascii "/var/www/draft.md") (ascii "draft.md"),
           StoreOp.update (ascii "/var/www/notes/setup.md") (ascii "notes/setup.md")]) := by
  decide

theorem CleanConfig_Handlers (visited : Nat → List GoString) (config : Config) :
    (CleanConfig visited config).Indexes.map (fun ix => ix.Handlers) =
      config.Indexes.map (fun ix => ix.Handlers) := by
  have key : ∀ (l : List IndexSection),
      (l.enum.map (fun numbered =>
        ({ numbered.2 with
          WatchDirs := (visited numbered.1).foldl cleanWatchDir numbered.2.WatchDirs } :
            IndexSection))).map (fun ix => ix.Handlers) = l.map (fun ix => ix.Handlers) := by
    intro l
    rw [List.map_map]
    conv_rhs => rw [← List.enum_map_snd l, List.map_map]
    rfl
  unfold CleanConfig
  simp only
  split <;> exact key _

/-- C9, the code at the failing input.  Whatever keys the map ranges of `CleanConfig`
reach, `LoadConfig` on the configuration of `TestSimpleConfig` stores a handler whose
`Path` is still `/var/www/wiki/`, with its trailing separator. -/
theorem LoadConfig_keeps_handler_path (visited : Nat → List GoString) :
    (match LoadConfig visited (some []) (fun _ => some testConfig) with
      | Except.ok config => config.Indexes.map (fun ix => ix.Handlers.map (fun h => h.Path))
      | Except.error _ => []) = [[ascii "/var/www/wiki/"]] := by
  have h := CleanConfig_Handlers visited testConfig
  have h2 : ∀ l : List IndexSection,
      l.map (fun ix => ix.Handlers.map (fun h => h.Path)) =
        (l.map (fun ix => ix.Handlers)).map (fun hs => hs.map (fun h => h.Path)) := by
    intro l; rw [List.map_map]; rfl
  show (CleanConfig visited testConfig).Indexes.map
    (fun ix => ix.Handlers.map (fun h => h.Path)) = _
  rw [h2, h]
  decide

end Gnosis
